import Mathlib

/-!
Shallow embedding of the flat_db chunked key-value store (src/hash.rs,
src/table.rs, src/file_table.rs) and proofs about the behaviour of its
operations.  Text (hex strings, filesystem paths) is modelled as `List Char`,
bytes as `Nat` values below 256, and the filesystem as a partial map from
paths to file contents.  The YAML codec is outside the repository and is
modelled, as the specification demands, as an opaque injective encode/decode
pair: a well-formed shard file stores its decoded mapping directly and any
other content fails to decode.
-/

namespace FlatDb

/-! ## Hexadecimal digits (src/hash.rs) -/

/-- Lowercase hexadecimal digit character for a nibble, as produced by the
format specifier used in `to_hex` (digits `0`-`9` then `a`-`f`). -/
def hexDigitChar (n : Nat) : Char :=
  if n < 10 then Char.ofNat (n + 48) else Char.ofNat (n + 87)

/-- Model of `char::to_digit(16)`: value of a hexadecimal digit character,
accepting both lowercase and uppercase letters. -/
def hexDigitVal (c : Char) : Option Nat :=
  if '0' ≤ c ∧ c ≤ '9' then some (c.toNat - 48)
  else if 'a' ≤ c ∧ c ≤ 'f' then some (c.toNat - 97 + 10)
  else if 'A' ≤ c ∧ c ≤ 'F' then some (c.toNat - 65 + 10)
  else none

/-- Digit loop of `u8::from_str_radix(_, 16)`: fold the digits left to right,
failing on a non-digit character or on overflow past the `u8` range. -/
def parseHexDigits (s : List Char) (acc : Nat) : Option Nat :=
  match s with
  | [] => some acc
  | c :: rest =>
    match hexDigitVal c with
    | none => none
    | some d => if acc * 16 + d < 256 then parseHexDigits rest (acc * 16 + d) else none

/-- Model of `u8::from_str_radix(s, 16)`.  The standard library strips an
optional leading plus sign (a lone sign is an error, and a minus sign is not
recognised for unsigned integers, so it fails as a digit) and then parses the
remaining characters as hexadecimal digits. -/
def fromStrRadix16U8 (s : List Char) : Option Nat :=
  match s with
  | [] => none
  | c :: rest =>
    if c = '+' then
      match rest with
      | [] => none
      | _ => parseHexDigits rest 0
    else parseHexDigits (c :: rest) 0

/-- Model of `to_byte` (src/hash.rs): parse a two-character slice of the hex
string with `u8::from_str_radix(hex, 16)`. -/
def to_byte (s : List Char) : Option Nat :=
  fromStrRadix16U8 s

/-- Errors when parsing a `Hash` from a hexadecimal string (src/hash.rs). -/
inductive HashError where
  | InvalidLength (expected : Nat) (actual : Nat)
  | InvalidCharacter (position : Nat)
  deriving DecidableEq

/-- Loop body of `to_bytes` (src/hash.rs): for `i` in the range `0..n`,
starting at byte offset `start = i * 2`, parse the two-character slice
`hex[start..start + 2]`; the first failing pair reports
`InvalidCharacter { position: start }`. -/
def pairsToBytes (hex : List Char) (start : Nat) : Nat → Except HashError (List Nat)
  | 0 => .ok []
  | n + 1 =>
    match to_byte ((hex.drop start).take 2) with
    | none => .error (.InvalidCharacter start)
    | some b =>
      match pairsToBytes hex (start + 2) n with
      | .error e => .error e
      | .ok rest => .ok (b :: rest)

/-- Model of `to_bytes` (src/hash.rs): reject a string whose length differs
from `N * 2` with `InvalidLength`, then parse the consecutive two-character
pairs. -/
def to_bytes (N : Nat) (hex : List Char) : Except HashError (List Nat) :=
  if hex.length = N * 2 then pairsToBytes hex 0 N
  else .error (.InvalidLength (N * 2) hex.length)

theorem parseHexDigits_lt {s : List Char} {acc r : Nat} (hacc : acc < 256)
    (h : parseHexDigits s acc = some r) : r < 256 := by
  induction s generalizing acc with
  | nil => simp [parseHexDigits] at h; omega
  | cons c rest ih =>
    simp only [parseHexDigits] at h
    cases hd : hexDigitVal c with
    | none => simp [hd] at h
    | some d =>
      simp only [hd] at h
      split at h
      · exact ih (by omega) h
      · exact absurd h (by simp)

theorem to_byte_lt {s : List Char} {b : Nat} (h : to_byte s = some b) : b < 256 := by
  unfold to_byte fromStrRadix16U8 at h
  cases s with
  | nil => simp at h
  | cons c rest =>
    simp only at h
    split at h
    · cases rest with
      | nil => simp at h
      | cons d tail => exact parseHexDigits_lt (by omega) h
    · exact parseHexDigits_lt (by omega) h

theorem pairsToBytes_length {hex : List Char} {start n : Nat} {l : List Nat}
    (h : pairsToBytes hex start n = .ok l) : l.length = n := by
  induction n generalizing start l with
  | zero => simp [pairsToBytes] at h; subst h; simp
  | succ n ih =>
    simp only [pairsToBytes] at h
    cases hb : to_byte ((hex.drop start).take 2) with
    | none => simp [hb] at h
    | some b =>
      simp only [hb] at h
      cases hr : pairsToBytes hex (start + 2) n with
      | error e => simp [hr] at h
      | ok rest =>
        simp only [hr] at h
        cases h
        simp [ih hr]

theorem pairsToBytes_lt {hex : List Char} {start n : Nat} {l : List Nat}
    (h : pairsToBytes hex start n = .ok l) : ∀ b ∈ l, b < 256 := by
  induction n generalizing start l with
  | zero => simp [pairsToBytes] at h; subst h; simp
  | succ n ih =>
    simp only [pairsToBytes] at h
    cases hb : to_byte ((hex.drop start).take 2) with
    | none => simp [hb] at h
    | some b =>
      simp only [hb] at h
      cases hr : pairsToBytes hex (start + 2) n with
      | error e => simp [hr] at h
      | ok rest =>
        simp only [hr] at h
        cases h
        intro x hx
        cases hx with
        | head => exact to_byte_lt hb
        | tail _ hmem => exact ih hr x hmem

theorem to_bytes_length {N : Nat} {hex : List Char} {l : List Nat}
    (h : to_bytes N hex = .ok l) : l.length = N := by
  unfold to_bytes at h
  split at h
  · exact pairsToBytes_length h
  · exact absurd h (by simp)

theorem to_bytes_lt {N : Nat} {hex : List Char} {l : List Nat}
    (h : to_bytes N hex = .ok l) : ∀ b ∈ l, b < 256 := by
  unfold to_bytes at h
  split at h
  · exact pairsToBytes_lt h
  · exact absurd h (by simp)

/-! ## The Hash type (src/hash.rs) -/

/-- Fixed-size byte array hash: an `N`-byte identifier.  Bytes are modelled
as natural numbers below 256. -/
structure Hash (N : Nat) where
  bytes : List Nat
  len_eq : bytes.length = N
  lt_256 : ∀ b ∈ bytes, b < 256

theorem Hash.eq_of_bytes_eq {N : Nat} {a b : Hash N} (h : a.bytes = b.bytes) : a = b := by
  cases a; cases b; simp_all

instance {N : Nat} : DecidableEq (Hash N) := fun a b =>
  if h : a.bytes = b.bytes then .isTrue (Hash.eq_of_bytes_eq h)
  else .isFalse (fun he => h (by rw [he]))

/-- Model of `Hash::to_hex`: render each byte with the lowercase two-digit
hexadecimal format. -/
def toHexChars (bytes : List Nat) : List Char :=
  match bytes with
  | [] => []
  | b :: rest => hexDigitChar (b / 16) :: hexDigitChar (b % 16) :: toHexChars rest

/-- Hexadecimal string representation of a hash (`Hash::to_hex`). -/
def Hash.to_hex {N : Nat} (h : Hash N) : List Char :=
  toHexChars h.bytes

/-- Model of `Hash::from_string`: parse the text with `to_bytes` and wrap the
resulting byte array. -/
def Hash.from_string (N : Nat) (hex : List Char) : Except HashError (Hash N) :=
  match hb : to_bytes N hex with
  | .error e => .error e
  | .ok bytes => .ok ⟨bytes, to_bytes_length hb, to_bytes_lt hb⟩

/-- Outcome of evaluating `Hash::truncate::<M>`, separating the two runtime
outcomes of the Rust code: `returnedSome` and `returnedNone` are the ordinary
`Option` results, while `panicked` records that the slice expression
`self.bytes[..M]` aborted with an out-of-range panic. -/
inductive TruncateResult (M : Nat) where
  | panicked
  | returnedNone
  | returnedSome (h : Hash M)

/-- Model of the Rust slice expression `l[..M]`: the first `M` elements, or a
panic (modelled as `none`) when `M` exceeds the length. -/
def sliceTo (l : List Nat) (M : Nat) : Option (List Nat) :=
  if M ≤ l.length then some (l.take M) else none

theorem sliceTo_lt_256 {N : Nat} (h : Hash N) {M : Nat} {s : List Nat}
    (hs : sliceTo h.bytes M = some s) : ∀ b ∈ s, b < 256 := by
  unfold sliceTo at hs
  split at hs
  · cases hs
    intro b hb
    exact h.lt_256 b (List.take_subset _ _ hb)
  · exact absurd hs (by simp)

/-- Model of `Hash::truncate::<M>` (src/hash.rs): slice the first `M` bytes
(panicking when `M > N`), then convert the slice into an `M`-byte array; the
conversion fails, yielding the Rust `None`, only when the slice length is not
`M`, which cannot happen once the slice succeeded. -/
def Hash.truncate {N : Nat} (h : Hash N) (M : Nat) : TruncateResult M :=
  match hs : sliceTo h.bytes M with
  | none => .panicked
  | some s =>
    if hl : s.length = M then .returnedSome ⟨s, hl, sliceTo_lt_256 h hs⟩
    else .returnedNone

/-- The hash made of the first `M` bytes of `h`, for `M ≤ N`. -/
def Hash.prefixHash {N : Nat} (h : Hash N) (M : Nat) (hM : M ≤ N) : Hash M :=
  ⟨h.bytes.take M, by simp [h.len_eq]; omega,
   fun b hb => h.lt_256 b (List.take_subset _ _ hb)⟩

theorem Hash.truncate_of_le {N : Nat} (h : Hash N) {M : Nat} (hM : M ≤ N) :
    h.truncate M = .returnedSome (h.prefixHash M hM) := by
  unfold Hash.truncate
  have hle : M ≤ h.bytes.length := by rw [h.len_eq]; exact hM
  have hs : sliceTo h.bytes M = some (h.bytes.take M) := by simp [sliceTo, hle]
  split
  · simp_all [sliceTo, hle]
  · rename_i s heq
    rw [hs] at heq
    cases heq
    have hlen : (h.bytes.take M).length = M := by simp [h.len_eq]; omega
    simp only [hlen, dif_pos]
    rfl

theorem Hash.truncate_of_gt {N : Nat} (h : Hash N) {M : Nat} (hM : N < M) :
    h.truncate M = .panicked := by
  unfold Hash.truncate
  have : ¬ M ≤ h.bytes.length := by rw [h.len_eq]; omega
  split
  · rfl
  · rename_i s heq
    simp [sliceTo, this] at heq

/-! ## Facts about hexadecimal digits and the render/parse round trip -/

/-- Characters allowed in the lowercase hexadecimal rendering. -/
def isLowerHexDigit (c : Char) : Bool :=
  if ('0' ≤ c ∧ c ≤ '9') ∨ ('a' ≤ c ∧ c ≤ 'f') then true else false

theorem hexDigitVal_hexDigitChar_fin :
    ∀ d : Fin 16, hexDigitVal (hexDigitChar d.val) = some d.val := by decide

theorem hexDigitVal_hexDigitChar {d : Nat} (hd : d < 16) :
    hexDigitVal (hexDigitChar d) = some d :=
  hexDigitVal_hexDigitChar_fin ⟨d, hd⟩

theorem hexDigitChar_ne_plus_fin : ∀ d : Fin 16, ¬ hexDigitChar d.val = '+' := by decide

theorem hexDigitChar_inj_fin :
    ∀ a b : Fin 16, hexDigitChar a.val = hexDigitChar b.val → a = b := by decide

theorem hexDigitChar_inj {a b : Nat} (ha : a < 16) (hb : b < 16)
    (h : hexDigitChar a = hexDigitChar b) : a = b := by
  have := hexDigitChar_inj_fin ⟨a, ha⟩ ⟨b, hb⟩ h
  exact congrArg Fin.val this

theorem isLowerHexDigit_hexDigitChar_fin :
    ∀ d : Fin 16, isLowerHexDigit (hexDigitChar d.val) = true := by decide

theorem toHexChars_length (bytes : List Nat) :
    (toHexChars bytes).length = bytes.length * 2 := by
  induction bytes with
  | nil => simp [toHexChars]
  | cons b rest ih => simp [toHexChars, ih]; omega

theorem toHexChars_mem {bytes : List Nat} (hlt : ∀ b ∈ bytes, b < 256) :
    ∀ c ∈ toHexChars bytes, ∃ d, d < 16 ∧ c = hexDigitChar d := by
  induction bytes with
  | nil => simp [toHexChars]
  | cons b rest ih =>
    intro c hc
    have hb : b < 256 := hlt b (by simp)
    simp only [toHexChars, List.mem_cons] at hc
    rcases hc with h1 | h2 | h3
    · exact ⟨b / 16, by omega, h1⟩
    · exact ⟨b % 16, by omega, h2⟩
    · exact ih (fun x hx => hlt x (List.mem_cons_of_mem _ hx)) c h3

theorem toHexChars_inj : ∀ {b1 b2 : List Nat}, (∀ x ∈ b1, x < 256) →
    (∀ x ∈ b2, x < 256) → b1.length = b2.length →
    toHexChars b1 = toHexChars b2 → b1 = b2 := by
  intro b1
  induction b1 with
  | nil =>
    intro b2 _ _ hlen _
    cases b2 with
    | nil => rfl
    | cons y ys => simp at hlen
  | cons x xs ih =>
    intro b2 h1 h2 hlen hhex
    cases b2 with
    | nil => simp at hlen
    | cons y ys =>
      simp only [toHexChars, List.cons.injEq] at hhex
      have hx : x < 256 := h1 x (by simp)
      have hy : y < 256 := h2 y (by simp)
      have hdiv : x / 16 = y / 16 := hexDigitChar_inj (by omega) (by omega) hhex.1
      have hmod : x % 16 = y % 16 := hexDigitChar_inj (by omega) (by omega) hhex.2.1
      have hxy : x = y := by omega
      have hrest : xs = ys := by
        refine ih (fun a ha => h1 a (List.mem_cons_of_mem _ ha))
          (fun a ha => h2 a (List.mem_cons_of_mem _ ha)) (by simpa using hlen) hhex.2.2
      rw [hxy, hrest]

theorem Hash.to_hex_inj {N : Nat} {a b : Hash N} (h : a.to_hex = b.to_hex) : a = b := by
  apply Hash.eq_of_bytes_eq
  exact toHexChars_inj a.lt_256 b.lt_256 (by rw [a.len_eq, b.len_eq]) h

theorem to_byte_pair {b : Nat} (hb : b < 256) :
    to_byte [hexDigitChar (b / 16), hexDigitChar (b % 16)] = some b := by
  have hne : ¬ hexDigitChar (b / 16) = '+' := hexDigitChar_ne_plus_fin ⟨b / 16, by omega⟩
  simp only [to_byte, fromStrRadix16U8]
  rw [if_neg hne]
  simp only [parseHexDigits, hexDigitVal_hexDigitChar (show b / 16 < 16 by omega),
    hexDigitVal_hexDigitChar (show b % 16 < 16 by omega)]
  have h1 : 0 * 16 + b / 16 < 256 := by omega
  rw [if_pos h1]
  have h2 : (0 * 16 + b / 16) * 16 + b % 16 = b := by omega
  rw [h2, if_pos hb]

theorem pairsToBytes_toHexChars : ∀ (bytes : List Nat), (∀ b ∈ bytes, b < 256) →
    ∀ pre : List Char,
      pairsToBytes (pre ++ toHexChars bytes) pre.length bytes.length = .ok bytes := by
  intro bytes
  induction bytes with
  | nil => intro _ pre; rfl
  | cons b rest ih =>
    intro hlt pre
    have hb : b < 256 := hlt b (by simp)
    simp only [List.length_cons, pairsToBytes, toHexChars]
    have hdrop : (pre ++ (hexDigitChar (b / 16) :: hexDigitChar (b % 16) :: toHexChars rest)).drop pre.length
        = hexDigitChar (b / 16) :: hexDigitChar (b % 16) :: toHexChars rest := by
      rw [List.drop_left]
    rw [hdrop]
    simp only [List.take_succ_cons, List.take_zero]
    rw [to_byte_pair hb]
    have hre : pre ++ (hexDigitChar (b / 16) :: hexDigitChar (b % 16) :: toHexChars rest)
        = (pre ++ [hexDigitChar (b / 16), hexDigitChar (b % 16)]) ++ toHexChars rest := by
      simp
    have hlen : pre.length + 2 = (pre ++ [hexDigitChar (b / 16), hexDigitChar (b % 16)]).length := by
      simp
    rw [hre, hlen, ih (fun x hx => hlt x (List.mem_cons_of_mem _ hx))]

theorem to_bytes_toHexChars {N : Nat} (h : Hash N) :
    to_bytes N h.to_hex = .ok h.bytes := by
  unfold to_bytes
  have hlen : (Hash.to_hex h).length = N * 2 := by
    rw [Hash.to_hex, toHexChars_length, h.len_eq]
  rw [if_pos hlen]
  have := pairsToBytes_toHexChars h.bytes h.lt_256 []
  simpa [Hash.to_hex, h.len_eq] using this

theorem from_string_to_hex {N : Nat} (h : Hash N) :
    Hash.from_string N h.to_hex = .ok h := by
  unfold Hash.from_string
  split
  · rename_i e heq
    rw [to_bytes_toHexChars h] at heq
    exact absurd heq (by simp)
  · rename_i bytes heq
    have hb : bytes = h.bytes := by
      rw [to_bytes_toHexChars h] at heq
      cases heq
      rfl
    subst hb
    congr 1

/-! ## Success and failure characterization of the hex parser -/

/-- Whether an `Except` value is a success. -/
def exOk {ε α : Type} (e : Except ε α) : Bool :=
  match e with
  | .ok _ => true
  | .error _ => false

theorem pairsToBytes_ok_of_pairs {hex : List Char} :
    ∀ (n start : Nat),
      (∀ i, i < n → (to_byte ((hex.drop (start + i * 2)).take 2)).isSome = true) →
      ∃ l, pairsToBytes hex start n = .ok l := by
  intro n
  induction n with
  | zero => intro start _; exact ⟨[], rfl⟩
  | succ n ih =>
    intro start hall
    have h0 := hall 0 (by omega)
    simp only [Nat.zero_mul, Nat.add_zero] at h0
    cases hb : to_byte ((hex.drop start).take 2) with
    | none => rw [hb] at h0; simp at h0
    | some b =>
      obtain ⟨l, hl⟩ := ih (start + 2) (fun i hi => by
        have hmem := hall (i + 1) (by omega)
        have harith : start + (i + 1) * 2 = start + 2 + i * 2 := by omega
        rw [harith] at hmem
        exact hmem)
      exact ⟨b :: l, by simp [pairsToBytes, hb, hl]⟩

theorem pairsToBytes_error_at {hex : List Char} :
    ∀ (n start i : Nat), i < n →
      (∀ j, j < i → (to_byte ((hex.drop (start + j * 2)).take 2)).isSome = true) →
      to_byte ((hex.drop (start + i * 2)).take 2) = none →
      pairsToBytes hex start n = .error (.InvalidCharacter (start + i * 2)) := by
  intro n
  induction n with
  | zero => intro start i hi; omega
  | succ n ih =>
    intro start i hi hok hbad
    cases i with
    | zero =>
      simp only [Nat.zero_mul, Nat.add_zero] at hbad
      simp [pairsToBytes, hbad]
    | succ i =>
      have h0 := hok 0 (by omega)
      simp only [Nat.zero_mul, Nat.add_zero] at h0
      cases hb : to_byte ((hex.drop start).take 2) with
      | none => rw [hb] at h0; simp at h0
      | some b =>
        have harith : start + (i + 1) * 2 = start + 2 + i * 2 := by omega
        have hrec := ih (start + 2) i (by omega)
          (fun j hj => by
            have hmem := hok (j + 1) (by omega)
            have harj : start + (j + 1) * 2 = start + 2 + j * 2 := by omega
            rw [harj] at hmem
            exact hmem)
          (by rw [← harith]; exact hbad)
        simp only [pairsToBytes, hb, hrec]
        rw [harith]

theorem to_bytes_len_error {N : Nat} {hex : List Char} (h : hex.length ≠ N * 2) :
    to_bytes N hex = .error (.InvalidLength (N * 2) hex.length) := by
  unfold to_bytes
  rw [if_neg h]

theorem from_string_eq_error {N : Nat} {hex : List Char} {e : HashError}
    (h : to_bytes N hex = .error e) : Hash.from_string N hex = .error e := by
  unfold Hash.from_string
  split
  · rename_i e1 heq
    rw [heq] at h
    cases h
    rfl
  · rename_i bytes heq
    rw [heq] at h
    cases h

theorem from_string_exOk {N : Nat} {hex : List Char} {l : List Nat}
    (h : to_bytes N hex = .ok l) : exOk (Hash.from_string N hex) = true := by
  unfold Hash.from_string
  split
  · rename_i e1 heq
    rw [heq] at h
    cases h
  · rfl

/-! ## Claims C6, C7, C8 -/

/-- C6 (amended): for every `M ≤ N`, `Hash::truncate::<M>` yields the hash of
the first `M` bytes; for every `M > N` the call is not a compile-time
impossibility but evaluates at runtime and panics on the slice index
`self.bytes[..M]` (so the documented `None` return is unreachable). -/
theorem spec_c6_truncate (N M : Nat) (h : Hash N) :
    (∀ (hM : M ≤ N), h.truncate M = .returnedSome (h.prefixHash M hM)) ∧
    (N < M → h.truncate M = .panicked) :=
  ⟨fun hM => h.truncate_of_le hM, fun hM => h.truncate_of_gt hM⟩

def zeroHash1 : Hash 1 := ⟨[0], rfl, by decide⟩

/-- C6 counterexample: truncating a 1-byte hash to width 2 is permitted by the
types and evaluates at runtime, aborting with a slice-index panic — the claim
that `M > N` is a compile/construction-time impossibility is false. -/
theorem spec_c6_counterexample : zeroHash1.truncate 2 = .panicked := rfl

/-- Witness: the amended C6 theorem applied at concrete widths. -/
theorem spec_c6_witness :
    zeroHash1.truncate 1 = .returnedSome (zeroHash1.prefixHash 1 (by decide)) ∧
    zeroHash1.truncate 3 = .panicked :=
  ⟨(spec_c6_truncate 1 1 zeroHash1).1 (by decide),
   (spec_c6_truncate 1 3 zeroHash1).2 (by decide)⟩

/-- C7 (amended): `Hash::from_string` fails with `InvalidLength` for every
string whose length is not `2N` (even when it also contains non-hex
characters); for a string of correct length each two-character pair is handed
to `u8::from_str_radix(_, 16)`, which accepts two hex digits or a plus sign
followed by a hex digit, so parsing succeeds whenever every pair is accepted,
and the first rejected pair reports `InvalidCharacter` at that pair's start
position. -/
theorem spec_c7_from_string_errors (N : Nat) (hex : List Char) :
    (hex.length ≠ N * 2 →
      Hash.from_string N hex = .error (.InvalidLength (N * 2) hex.length)) ∧
    (hex.length = N * 2 →
      (∀ i, i < N → (to_byte ((hex.drop (i * 2)).take 2)).isSome = true) →
      exOk (Hash.from_string N hex) = true) ∧
    (hex.length = N * 2 → ∀ i, i < N →
      (∀ j, j < i → (to_byte ((hex.drop (j * 2)).take 2)).isSome = true) →
      to_byte ((hex.drop (i * 2)).take 2) = none →
      Hash.from_string N hex = .error (.InvalidCharacter (i * 2))) := by
  refine ⟨fun hlen => from_string_eq_error (to_bytes_len_error hlen), ?_, ?_⟩
  · intro hlen hall
    obtain ⟨l, hl⟩ := pairsToBytes_ok_of_pairs N 0 (fun i hi => by
      have hmem := hall i hi
      simpa using hmem)
    refine from_string_exOk (l := l) ?_
    unfold to_bytes
    rw [if_pos hlen]
    exact hl
  · intro hlen i hi hok hbad
    have herr := pairsToBytes_error_at N 0 i hi
      (fun j hj => by have hmem := hok j hj; simpa using hmem)
      (by simpa using hbad)
    apply from_string_eq_error
    unfold to_bytes
    rw [if_pos hlen, herr]
    simp

def plusHash : Hash 1 := ⟨[15], rfl, by decide⟩

/-- C7 counterexample: the two-character string "+f" has the correct length
`2N` for `N = 1` and contains the non-hex character `+`, yet `from_string`
succeeds (returning the byte 0x0f) instead of failing with
`InvalidCharacter`, because `u8::from_str_radix` accepts a leading plus
sign. -/
theorem spec_c7_counterexample :
    Hash.from_string 1 ['+', 'f'] = .ok plusHash ∧ hexDigitVal '+' = none :=
  ⟨rfl, rfl⟩

/-- Witness: the amended C7 theorem applied at concrete strings for each of
its three conjuncts. -/
theorem spec_c7_witness :
    Hash.from_string 2 ['a'] = .error (.InvalidLength 4 1) ∧
    exOk (Hash.from_string 1 ['a', 'b']) = true ∧
    Hash.from_string 1 ['z', 'z'] = .error (.InvalidCharacter 0) :=
  ⟨(spec_c7_from_string_errors 2 ['a']).1 (by decide),
   (spec_c7_from_string_errors 1 ['a', 'b']).2.1 rfl
     (fun i hi => by
       have h0 : i = 0 := by omega
       subst h0
       rfl),
   (spec_c7_from_string_errors 1 ['z', 'z']).2.2 rfl 0 (by omega)
     (fun j hj => absurd hj (by omega)) rfl⟩

/-- C8: for every `N`-byte hash, parsing the hex rendering round-trips, and
the rendering is lowercase hexadecimal of exactly `2N` characters. -/
theorem spec_c8_round_trip (N : Nat) (h : Hash N) :
    Hash.from_string N h.to_hex = .ok h ∧
    h.to_hex.length = N * 2 ∧
    (∀ c ∈ h.to_hex, isLowerHexDigit c = true) := by
  refine ⟨from_string_to_hex h, ?_, ?_⟩
  · rw [Hash.to_hex, toHexChars_length, h.len_eq]
  · intro c hc
    obtain ⟨d, hd, rfl⟩ := toHexChars_mem h.lt_256 c hc
    exact isLowerHexDigit_hexDigitChar_fin ⟨d, hd⟩

def abHash : Hash 1 := ⟨[171], rfl, by decide⟩

/-- Witness: the C8 theorem applied to the concrete byte array [0xab]. -/
theorem spec_c8_witness :
    Hash.from_string 1 abHash.to_hex = .ok abHash ∧ isLowerHexDigit 'a' = true :=
  ⟨(spec_c8_round_trip 1 abHash).1,
   (spec_c8_round_trip 1 abHash).2.2 'a' (by decide)⟩

/-! ## Filesystem model and the chunked table (src/table.rs)

The filesystem is a partial map from paths (character lists) to file
contents.  A shard (chunk) file stores its decoded mapping directly — the
YAML codec is external to the repository and is modelled as an opaque
injective encode/decode pair, so `chunk m` stands for the serialization of
`m` and `corrupt` for any bytes the codec rejects; `marker` is the empty
file created by exclusive lock acquisition.  Each operation takes the
filesystem before the call and returns the filesystem after it together
with the operation's result, so state changes made before an error
propagates (via the `?` operator in the source) are retained. -/

/-- Content of a file in the modelled filesystem. -/
inductive FileData (K : Nat) (T : Type) where
  | chunk (m : List (Hash K × T))
  | corrupt
  | marker

/-- The filesystem: a partial map from paths to file contents. -/
def FS (K : Nat) (T : Type) : Type :=
  List Char → Option (FileData K T)

/-- Point update of the filesystem (`none` deletes the file). -/
def fsUpdate {K : Nat} {T : Type} (fs : FS K T) (p : List Char)
    (d : Option (FileData K T)) : FS K T :=
  fun q => if q = p then d else fs q

variable {K C : Nat} {T : Type}

/-- Operation being performed when a `TableError` occurred (src/table.rs). -/
inductive TableOperation where
  | ReadChunk
  | WriteChunk
  | ReadDir
  | ReadEntry
  | AcquireLock
  | ReleaseLock
  | Serialize
  | Deserialize
  | JoinTask
  | SetMany
  deriving DecidableEq

/-- Errors returned by table operations, mirroring `TableError` and its
`ErrorSource`: an I/O failure, a codec failure, or the aggregate batch error
carrying succeeded and failed counts and the individual errors.  The
underlying OS error values are opaque and not modelled; `join` task failures
cannot arise in this sequentialized model but the constructor is kept for
completeness. -/
inductive TableError where
  | io (operation : TableOperation) (path : Option (List Char))
  | yaml (operation : TableOperation) (path : Option (List Char))
  | join
  | batch (succeeded : Nat) (failed : Nat) (errors : List TableError)

/-- Association-list model of `BTreeMap` lookup (`get`). -/
def mapLookup (m : List (Hash K × T)) (k : Hash K) : Option T :=
  match m with
  | [] => none
  | (k1, v) :: rest => if k1 = k then some v else mapLookup rest k

/-- Association-list model of `BTreeMap::insert`: replace the value when the
key is present, append the binding otherwise. -/
def mapInsert (m : List (Hash K × T)) (k : Hash K) (v : T) : List (Hash K × T) :=
  match m with
  | [] => [(k, v)]
  | (k1, v1) :: rest => if k1 = k then (k, v) :: rest else (k1, v1) :: mapInsert rest k v

/-- Association-list model of `BTreeMap::remove` (the bindings left behind). -/
def mapErase (m : List (Hash K × T)) (k : Hash K) : List (Hash K × T) :=
  match m with
  | [] => []
  | (k1, v1) :: rest => if k1 = k then rest else (k1, v1) :: mapErase rest k

/-- Association-list model of `BTreeMap::contains_key`. -/
def mapContains (m : List (Hash K × T)) (k : Hash K) : Bool :=
  (mapLookup m k).isSome

/-- A well-formed mapping binds each key at most once. -/
def keysNodup (m : List (Hash K × T)) : Prop :=
  (m.map Prod.fst).Nodup

/-- Model of `get_chunk_hash` (src/table.rs): the key truncated to the chunk
width.  The source calls `hash.truncate::<C>().expect(..)`; tables are only
usable when `C ≤ K`, in which case `truncate` returns `Some` of the first
`C` bytes (see `Hash.truncate_of_le`), which is the value extracted here. -/
def get_chunk_hash (h : Hash K) (hCK : C ≤ K) : Hash C :=
  h.prefixHash C hCK

theorem get_chunk_hash_eq_truncate (h : Hash K) (hCK : C ≤ K) :
    h.truncate C = .returnedSome (get_chunk_hash h hCK) :=
  h.truncate_of_le hCK

/-- Key-value table with chunked file storage (src/table.rs).  The phantom
item-type marker of the source is implicit in the type parameter `T`. -/
structure Table (K C : Nat) (T : Type) where
  directory : List Char

/-- Model of `Table::get_chunk_path`: `<directory>/<hex(chunk hash)>.yml`. -/
def Table.get_chunk_path (t : Table K C T) (c : Hash C) : List Char :=
  t.directory ++ '/' :: (c.to_hex ++ '.' :: ['y', 'm', 'l'])

/-- The lock marker path derived by `acquire_lock` from the chunk path with
`set_extension("lock")`: `<directory>/<hex(chunk hash)>.lock`. -/
def Table.get_lock_path (t : Table K C T) (c : Hash C) : List Char :=
  t.directory ++ '/' :: (c.to_hex ++ '.' :: ['l', 'o', 'c', 'k'])

/-- Model of `acquire_lock` (src/table.rs): atomically create the lock marker
in create-new mode.  With no concurrent actors an existing marker never goes
away while the acquirer polls, so the retry loop is equivalent to an
immediate timeout error when the marker already exists and immediate success
otherwise. -/
def acquire_lock (fs : FS K T) (p : List Char) : FS K T × Except TableError Unit :=
  match fs p with
  | some _ => (fs, .error (.io .AcquireLock (some p)))
  | none => (fsUpdate fs p (some .marker), .ok ())

/-- Model of `release_lock` (src/table.rs): delete the marker file, failing
with a `ReleaseLock` I/O error when it does not exist. -/
def release_lock (fs : FS K T) (p : List Char) : FS K T × Except TableError Unit :=
  match fs p with
  | none => (fs, .error (.io .ReleaseLock (some p)))
  | some _ => (fsUpdate fs p none, .ok ())

/-- Model of `read_chunk` (src/table.rs): read the file (an I/O error when it
is absent) and decode it (a `Deserialize` error when the codec rejects the
content). -/
def read_chunk (fs : FS K T) (p : List Char) : Except TableError (List (Hash K × T)) :=
  match fs p with
  | none => .error (.io .ReadChunk (some p))
  | some (.chunk m) => .ok m
  | some _ => .error (.yaml .Deserialize (some p))

/-- Model of `write_chunk` (src/table.rs): serialize the mapping and write
the file in place.  Serialization of a key-value mapping cannot fail in the
opaque-codec model and the write itself is assumed crash-free, so the
operation always succeeds. -/
def write_chunk (fs : FS K T) (p : List Char) (m : List (Hash K × T)) : FS K T :=
  fsUpdate fs p (some (.chunk m))

/-- The `if chunk_path.exists() { read_chunk(..)? } else { BTreeMap::new() }`
pattern shared by `set`, `remove` and `update_chunk`. -/
def load_chunk (fs : FS K T) (p : List Char) : Except TableError (List (Hash K × T)) :=
  match fs p with
  | none => .ok []
  | some _ => read_chunk fs p

/-- Model of `Table::get` (src/table.rs): return `None` when the chunk file
does not exist, otherwise read it and look the key up. -/
def Table.get (t : Table K C T) (hCK : C ≤ K) (fs : FS K T) (hash : Hash K) :
    Except TableError (Option T) :=
  match fs (t.get_chunk_path (get_chunk_hash hash hCK)) with
  | none => .ok none
  | some _ =>
    match read_chunk fs (t.get_chunk_path (get_chunk_hash hash hCK)) with
    | .error e => .error e
    | .ok chunk => .ok (mapLookup chunk hash)

/-- Model of `Table::set` (src/table.rs): acquire the shard lock, load the
existing mapping (empty when the file is absent), insert the binding, write
the mapping back and release the lock.  An error at any step propagates and
skips the remaining steps, as `?` does in the source. -/
def Table.set (t : Table K C T) (hCK : C ≤ K) (fs : FS K T) (hash : Hash K)
    (item : T) : FS K T × Except TableError Unit :=
  match acquire_lock fs (t.get_lock_path (get_chunk_hash hash hCK)) with
  | (fs1, .error e) => (fs1, .error e)
  | (fs1, .ok _) =>
    match load_chunk fs1 (t.get_chunk_path (get_chunk_hash hash hCK)) with
    | .error e => (fs1, .error e)
    | .ok chunk =>
      release_lock
        (write_chunk fs1 (t.get_chunk_path (get_chunk_hash hash hCK))
          (mapInsert chunk hash item))
        (t.get_lock_path (get_chunk_hash hash hCK))

/-- Model of `Table::remove` (src/table.rs): acquire the shard lock, load the
mapping (empty when the file is absent), remove the key, write back only when
something was removed, release the lock and return the removed value. -/
def Table.remove (t : Table K C T) (hCK : C ≤ K) (fs : FS K T) (hash : Hash K) :
    FS K T × Except TableError (Option T) :=
  match acquire_lock fs (t.get_lock_path (get_chunk_hash hash hCK)) with
  | (fs1, .error e) => (fs1, .error e)
  | (fs1, .ok _) =>
    match load_chunk fs1 (t.get_chunk_path (get_chunk_hash hash hCK)) with
    | .error e => (fs1, .error e)
    | .ok chunk =>
      match release_lock
          (if (mapLookup chunk hash).isSome then
            write_chunk fs1 (t.get_chunk_path (get_chunk_hash hash hCK))
              (mapErase chunk hash)
          else fs1)
          (t.get_lock_path (get_chunk_hash hash hCK)) with
      | (fs3, .error e) => (fs3, .error e)
      | (fs3, .ok _) => (fs3, .ok (mapLookup chunk hash))

/-- Loop body of `update_chunk` (src/table.rs): for each incoming binding, if
`replace` is set or the key is absent, insert it and count it as added. -/
def applyNew (chunk : List (Hash K × T)) (new_chunk : List (Hash K × T))
    (replace : Bool) : List (Hash K × T) × Nat :=
  match new_chunk with
  | [] => (chunk, 0)
  | (hash, item) :: rest =>
    if replace || !(mapContains chunk hash) then
      let r := applyNew (mapInsert chunk hash item) rest replace
      (r.1, r.2 + 1)
    else applyNew chunk rest replace

/-- Model of `update_chunk` (src/table.rs): one shard's guarded
read-modify-write during `set_many`; returns the number of bindings added. -/
def update_chunk (fs : FS K T) (chunk_path lockP : List Char)
    (new_chunk : List (Hash K × T)) (replace : Bool) :
    FS K T × Except TableError Nat :=
  match acquire_lock fs lockP with
  | (fs1, .error e) => (fs1, .error e)
  | (fs1, .ok _) =>
    match load_chunk fs1 chunk_path with
    | .error e => (fs1, .error e)
    | .ok chunk =>
      match release_lock
          (write_chunk fs1 chunk_path (applyNew chunk new_chunk replace).1) lockP with
      | (fs3, .error e) => (fs3, .error e)
      | (fs3, .ok _) => (fs3, .ok (applyNew chunk new_chunk replace).2)

/-- One step of `group_by_chunk` (src/table.rs): route a binding to its
chunk's group, creating the group when it does not exist yet. -/
def addToGroup (groups : List (Hash C × List (Hash K × T))) (ch : Hash C)
    (hash : Hash K) (item : T) : List (Hash C × List (Hash K × T)) :=
  match groups with
  | [] => [(ch, [(hash, item)])]
  | (c1, g) :: rest =>
    if c1 = ch then (c1, mapInsert g hash item) :: rest
    else (c1, g) :: addToGroup rest ch hash item

/-- Left fold of `group_by_chunk` over the input bindings. -/
def group_chunks (hCK : C ≤ K) (groups : List (Hash C × List (Hash K × T))) :
    List (Hash K × T) → List (Hash C × List (Hash K × T))
  | [] => groups
  | (hash, item) :: rest =>
    group_chunks hCK (addToGroup groups (get_chunk_hash hash hCK) hash item) rest

/-- Model of `group_by_chunk` (src/table.rs): partition the input bindings by
their chunk hash. -/
def group_by_chunk (hCK : C ≤ K) (items : List (Hash K × T)) :
    List (Hash C × List (Hash K × T)) :=
  group_chunks hCK [] items

/-- The fan-out of `set_many`: run `update_chunk` for every group and collect
each shard's outcome.  The source spawns one task per shard and awaits them
all with `join_all`; the tasks of distinct shards touch pairwise-disjoint
paths (their own chunk file and lock marker), so running them in shard order
over the shared filesystem yields the same final state and the same
per-shard results, and `join_all` preserves the order in which the futures
were created.  Task-join failures (panics) cannot arise in this model. -/
def run_chunks (t : Table K C T) (replace : Bool) :
    FS K T → List (Hash C × List (Hash K × T)) →
    FS K T × List (Except TableError Nat)
  | fs, [] => (fs, [])
  | fs, (ch, g) :: rest =>
    ((run_chunks t replace
        (update_chunk fs (t.get_chunk_path ch) (t.get_lock_path ch) g replace).1 rest).1,
     (update_chunk fs (t.get_chunk_path ch) (t.get_lock_path ch) g replace).2 ::
       (run_chunks t replace
         (update_chunk fs (t.get_chunk_path ch) (t.get_lock_path ch) g replace).1 rest).2)

/-- Sum of the added counts of the successful shard outcomes, mirroring the
`added += count` accumulation of `set_many`. -/
def collectAdded : List (Except TableError Nat) → Nat
  | [] => 0
  | .ok n :: rest => n + collectAdded rest
  | .error _ :: rest => collectAdded rest

/-- The individual shard errors in outcome order, mirroring the
`errors.push(e)` accumulation of `set_many`. -/
def collectErrors : List (Except TableError Nat) → List TableError
  | [] => []
  | .ok _ :: rest => collectErrors rest
  | .error e :: rest => e :: collectErrors rest

/-- Model of `Table::set_many` (src/table.rs): group the input by chunk, run
every shard's update, and either return the total added count or aggregate
all shard errors into a single batch error with the succeeded and failed
shard counts. -/
def Table.set_many (t : Table K C T) (hCK : C ≤ K) (fs : FS K T)
    (items : List (Hash K × T)) (replace : Bool) :
    FS K T × Except TableError Nat :=
  if (collectErrors (run_chunks t replace fs (group_by_chunk hCK items)).2).isEmpty then
    ((run_chunks t replace fs (group_by_chunk hCK items)).1,
     .ok (collectAdded (run_chunks t replace fs (group_by_chunk hCK items)).2))
  else
    ((run_chunks t replace fs (group_by_chunk hCK items)).1,
     .error (.batch
       ((group_by_chunk hCK items).length
         - (collectErrors (run_chunks t replace fs (group_by_chunk hCK items)).2).length)
       (collectErrors (run_chunks t replace fs (group_by_chunk hCK items)).2).length
       (collectErrors (run_chunks t replace fs (group_by_chunk hCK items)).2)))

/-! ## Path and filesystem facts -/

theorem fsUpdate_self (fs : FS K T) (p : List Char) (d : Option (FileData K T)) :
    fsUpdate fs p d p = d := by
  simp [fsUpdate]

theorem fsUpdate_ne (fs : FS K T) {p q : List Char} (d : Option (FileData K T))
    (h : q ≠ p) : fsUpdate fs p d q = fs q := by
  simp [fsUpdate, h]

theorem to_hex_length (c : Hash C) : c.to_hex.length = C * 2 := by
  rw [Hash.to_hex, toHexChars_length, c.len_eq]

theorem get_chunk_path_ne_lock_path (t : Table K C T) (c1 c2 : Hash C) :
    t.get_chunk_path c1 ≠ t.get_lock_path c2 := by
  intro h
  have hlen := congrArg List.length h
  simp only [Table.get_chunk_path, Table.get_lock_path, List.length_append,
    List.length_cons, to_hex_length] at hlen
  omega

theorem get_chunk_path_inj (t : Table K C T) {c1 c2 : Hash C}
    (h : t.get_chunk_path c1 = t.get_chunk_path c2) : c1 = c2 := by
  unfold Table.get_chunk_path at h
  have h1 := List.append_cancel_left h
  have h2 : c1.to_hex ++ '.' :: ['y', 'm', 'l'] = c2.to_hex ++ '.' :: ['y', 'm', 'l'] := by
    injection h1
  have h3 : c1.to_hex = c2.to_hex :=
    (List.append_inj h2 (by rw [to_hex_length, to_hex_length])).1
  exact Hash.to_hex_inj h3

theorem get_lock_path_inj (t : Table K C T) {c1 c2 : Hash C}
    (h : t.get_lock_path c1 = t.get_lock_path c2) : c1 = c2 := by
  unfold Table.get_lock_path at h
  have h1 := List.append_cancel_left h
  have h2 : c1.to_hex ++ '.' :: ['l', 'o', 'c', 'k'] = c2.to_hex ++ '.' :: ['l', 'o', 'c', 'k'] := by
    injection h1
  have h3 : c1.to_hex = c2.to_hex :=
    (List.append_inj h2 (by rw [to_hex_length, to_hex_length])).1
  exact Hash.to_hex_inj h3

theorem load_chunk_congr {fs1 fs2 : FS K T} {p : List Char} (h : fs1 p = fs2 p) :
    load_chunk fs1 p = load_chunk fs2 p := by
  unfold load_chunk read_chunk
  rw [h]

theorem get_congr (t : Table K C T) (hCK : C ≤ K) {fs1 fs2 : FS K T} (hash : Hash K)
    (h : fs1 (t.get_chunk_path (get_chunk_hash hash hCK))
       = fs2 (t.get_chunk_path (get_chunk_hash hash hCK))) :
    t.get hCK fs1 hash = t.get hCK fs2 hash := by
  unfold Table.get read_chunk
  rw [h]

theorem get_of_load {t : Table K C T} {hCK : C ≤ K} {fs : FS K T} {hash : Hash K}
    {old : List (Hash K × T)}
    (h : load_chunk fs (t.get_chunk_path (get_chunk_hash hash hCK)) = .ok old) :
    t.get hCK fs hash = .ok (mapLookup old hash) := by
  unfold load_chunk at h
  unfold Table.get
  cases hc : fs (t.get_chunk_path (get_chunk_hash hash hCK)) with
  | none =>
    rw [hc] at h
    cases h
    rfl
  | some d =>
    rw [hc] at h
    unfold read_chunk at h ⊢
    rw [hc] at h ⊢
    cases d with
    | chunk m =>
      cases h
      rfl
    | corrupt => cases h
    | marker => cases h

/-! ## Association-map facts -/

theorem mapLookup_insert_self (m : List (Hash K × T)) (k : Hash K) (v : T) :
    mapLookup (mapInsert m k v) k = some v := by
  induction m with
  | nil => simp [mapInsert, mapLookup]
  | cons kv rest ih =>
    obtain ⟨k1, v1⟩ := kv
    by_cases hk : k1 = k
    · subst hk
      simp [mapInsert, mapLookup]
    · simp [mapInsert, mapLookup, hk, ih]

theorem mapLookup_insert_ne (m : List (Hash K × T)) {k k' : Hash K} (v : T)
    (h : k ≠ k') : mapLookup (mapInsert m k v) k' = mapLookup m k' := by
  induction m with
  | nil => simp [mapInsert, mapLookup, h]
  | cons kv rest ih =>
    obtain ⟨k1, v1⟩ := kv
    by_cases hk : k1 = k
    · subst hk
      simp [mapInsert, mapLookup, h, ih]
    · simp [mapInsert, mapLookup, hk, ih]

theorem mapInsert_of_lookup_none {m : List (Hash K × T)} {k : Hash K} (v : T)
    (h : mapLookup m k = none) : mapInsert m k v = m ++ [(k, v)] := by
  induction m with
  | nil => rfl
  | cons kv rest ih =>
    obtain ⟨k1, v1⟩ := kv
    by_cases hk : k1 = k
    · subst hk
      simp [mapLookup] at h
    · simp only [mapLookup, if_neg hk] at h
      simp [mapInsert, hk, ih h]

theorem mapContains_insert_ne (m : List (Hash K × T)) {k k' : Hash K} (v : T)
    (h : k ≠ k') : mapContains (mapInsert m k v) k' = mapContains m k' := by
  unfold mapContains
  rw [mapLookup_insert_ne m v h]

theorem mapLookup_none_of_not_mem {m : List (Hash K × T)} {k : Hash K}
    (h : k ∉ m.map Prod.fst) : mapLookup m k = none := by
  induction m with
  | nil => rfl
  | cons kv rest ih =>
    obtain ⟨k1, v1⟩ := kv
    simp only [List.map_cons, List.mem_cons] at h
    push_neg at h
    have hne : ¬ k1 = k := fun hx => h.1 hx.symm
    simp [mapLookup, hne, ih h.2]

theorem mapLookup_isSome_mem {m : List (Hash K × T)} {k : Hash K} {v : T}
    (h : mapLookup m k = some v) : (k, v) ∈ m := by
  induction m with
  | nil => simp [mapLookup] at h
  | cons kv rest ih =>
    obtain ⟨k1, v1⟩ := kv
    by_cases hk : k1 = k
    · subst hk
      simp only [mapLookup, if_pos rfl] at h
      cases h
      simp
    · simp only [mapLookup, if_neg hk] at h
      exact List.mem_cons_of_mem _ (ih h)

theorem mem_mapInsert {m : List (Hash K × T)} {k : Hash K} {v : T} :
    ∀ kv ∈ mapInsert m k v, kv ∈ m ∨ kv = (k, v) := by
  induction m with
  | nil =>
    intro kv hkv
    simp only [mapInsert, List.mem_singleton] at hkv
    exact Or.inr hkv
  | cons kv1 rest ih =>
    obtain ⟨k1, v1⟩ := kv1
    intro kv hkv
    by_cases hk : k1 = k
    · subst hk
      rw [show mapInsert ((k1, v1) :: rest) k1 v = (k1, v) :: rest from by
        simp [mapInsert]] at hkv
      rcases List.mem_cons.mp hkv with h1 | h1
      · exact Or.inr h1
      · exact Or.inl (List.mem_cons_of_mem _ h1)
    · rw [show mapInsert ((k1, v1) :: rest) k v = (k1, v1) :: mapInsert rest k v from by
        simp [mapInsert, hk]] at hkv
      rcases List.mem_cons.mp hkv with h1 | h1
      · exact Or.inl (by rw [h1]; exact List.mem_cons_self _ _)
      · rcases ih kv h1 with h2 | h2
        · exact Or.inl (List.mem_cons_of_mem _ h2)
        · exact Or.inr h2

/-! ## Execution equations for the write operations -/

theorem load_chunk_of_chunk {fs : FS K T} {p : List Char} {m : List (Hash K × T)}
    (h : fs p = some (.chunk m)) : load_chunk fs p = .ok m := by
  unfold load_chunk read_chunk
  rw [h]

theorem set_eq_lock_busy {t : Table K C T} {hCK : C ≤ K} {fs : FS K T} {hash : Hash K}
    {item : T} {d : FileData K T}
    (hl : fs (t.get_lock_path (get_chunk_hash hash hCK)) = some d) :
    t.set hCK fs hash item
      = (fs, .error (.io .AcquireLock (some (t.get_lock_path (get_chunk_hash hash hCK))))) := by
  unfold Table.set acquire_lock
  simp only [hl]

theorem set_eq_load_error {t : Table K C T} {hCK : C ≤ K} {fs : FS K T} {hash : Hash K}
    {item : T} {e : TableError}
    (hl : fs (t.get_lock_path (get_chunk_hash hash hCK)) = none)
    (hload : load_chunk fs (t.get_chunk_path (get_chunk_hash hash hCK)) = .error e) :
    t.set hCK fs hash item
      = (fsUpdate fs (t.get_lock_path (get_chunk_hash hash hCK)) (some .marker), .error e) := by
  have hne : t.get_chunk_path (get_chunk_hash hash hCK)
      ≠ t.get_lock_path (get_chunk_hash hash hCK) := get_chunk_path_ne_lock_path t _ _
  have h1 : load_chunk
      (fsUpdate fs (t.get_lock_path (get_chunk_hash hash hCK)) (some .marker))
      (t.get_chunk_path (get_chunk_hash hash hCK)) = .error e := by
    rw [load_chunk_congr (fsUpdate_ne fs (some FileData.marker) hne), hload]
  unfold Table.set acquire_lock
  simp only [hl, h1]

theorem set_eq_ok {t : Table K C T} {hCK : C ≤ K} {fs : FS K T} {hash : Hash K}
    {item : T} {old : List (Hash K × T)}
    (hl : fs (t.get_lock_path (get_chunk_hash hash hCK)) = none)
    (hload : load_chunk fs (t.get_chunk_path (get_chunk_hash hash hCK)) = .ok old) :
    t.set hCK fs hash item
      = (fsUpdate
          (write_chunk
            (fsUpdate fs (t.get_lock_path (get_chunk_hash hash hCK)) (some .marker))
            (t.get_chunk_path (get_chunk_hash hash hCK)) (mapInsert old hash item))
          (t.get_lock_path (get_chunk_hash hash hCK)) none, .ok ()) := by
  have hne : t.get_chunk_path (get_chunk_hash hash hCK)
      ≠ t.get_lock_path (get_chunk_hash hash hCK) := get_chunk_path_ne_lock_path t _ _
  have h1 : load_chunk
      (fsUpdate fs (t.get_lock_path (get_chunk_hash hash hCK)) (some .marker))
      (t.get_chunk_path (get_chunk_hash hash hCK)) = .ok old := by
    rw [load_chunk_congr (fsUpdate_ne fs (some FileData.marker) hne), hload]
  have h2 : write_chunk
      (fsUpdate fs (t.get_lock_path (get_chunk_hash hash hCK)) (some FileData.marker))
      (t.get_chunk_path (get_chunk_hash hash hCK)) (mapInsert old hash item)
      (t.get_lock_path (get_chunk_hash hash hCK)) = some FileData.marker := by
    rw [write_chunk, fsUpdate_ne _ _ (Ne.symm hne), fsUpdate_self]
  unfold Table.set acquire_lock release_lock
  simp only [hl, h1, h2]

theorem remove_eq_lock_busy {t : Table K C T} {hCK : C ≤ K} {fs : FS K T} {hash : Hash K}
    {d : FileData K T}
    (hl : fs (t.get_lock_path (get_chunk_hash hash hCK)) = some d) :
    t.remove hCK fs hash
      = (fs, .error (.io .AcquireLock (some (t.get_lock_path (get_chunk_hash hash hCK))))) := by
  unfold Table.remove acquire_lock
  simp only [hl]

theorem remove_eq_load_error {t : Table K C T} {hCK : C ≤ K} {fs : FS K T} {hash : Hash K}
    {e : TableError}
    (hl : fs (t.get_lock_path (get_chunk_hash hash hCK)) = none)
    (hload : load_chunk fs (t.get_chunk_path (get_chunk_hash hash hCK)) = .error e) :
    t.remove hCK fs hash
      = (fsUpdate fs (t.get_lock_path (get_chunk_hash hash hCK)) (some .marker), .error e) := by
  have hne : t.get_chunk_path (get_chunk_hash hash hCK)
      ≠ t.get_lock_path (get_chunk_hash hash hCK) := get_chunk_path_ne_lock_path t _ _
  have h1 : load_chunk
      (fsUpdate fs (t.get_lock_path (get_chunk_hash hash hCK)) (some .marker))
      (t.get_chunk_path (get_chunk_hash hash hCK)) = .error e := by
    rw [load_chunk_congr (fsUpdate_ne fs (some FileData.marker) hne), hload]
  unfold Table.remove acquire_lock
  simp only [hl, h1]

theorem remove_eq_ok {t : Table K C T} {hCK : C ≤ K} {fs : FS K T} {hash : Hash K}
    {old : List (Hash K × T)}
    (hl : fs (t.get_lock_path (get_chunk_hash hash hCK)) = none)
    (hload : load_chunk fs (t.get_chunk_path (get_chunk_hash hash hCK)) = .ok old) :
    t.remove hCK fs hash
      = (fsUpdate
          (if (mapLookup old hash).isSome then
            write_chunk
              (fsUpdate fs (t.get_lock_path (get_chunk_hash hash hCK)) (some .marker))
              (t.get_chunk_path (get_chunk_hash hash hCK)) (mapErase old hash)
          else fsUpdate fs (t.get_lock_path (get_chunk_hash hash hCK)) (some .marker))
          (t.get_lock_path (get_chunk_hash hash hCK)) none,
         .ok (mapLookup old hash)) := by
  have hne : t.get_chunk_path (get_chunk_hash hash hCK)
      ≠ t.get_lock_path (get_chunk_hash hash hCK) := get_chunk_path_ne_lock_path t _ _
  have h1 : load_chunk
      (fsUpdate fs (t.get_lock_path (get_chunk_hash hash hCK)) (some .marker))
      (t.get_chunk_path (get_chunk_hash hash hCK)) = .ok old := by
    rw [load_chunk_congr (fsUpdate_ne fs (some FileData.marker) hne), hload]
  have h2 : (if (mapLookup old hash).isSome then
        write_chunk
          (fsUpdate fs (t.get_lock_path (get_chunk_hash hash hCK)) (some FileData.marker))
          (t.get_chunk_path (get_chunk_hash hash hCK)) (mapErase old hash)
      else fsUpdate fs (t.get_lock_path (get_chunk_hash hash hCK)) (some FileData.marker))
      (t.get_lock_path (get_chunk_hash hash hCK)) = some FileData.marker := by
    by_cases hi : (mapLookup old hash).isSome
    · rw [if_pos hi, write_chunk, fsUpdate_ne _ _ (Ne.symm hne), fsUpdate_self]
    · rw [if_neg hi, fsUpdate_self]
  unfold Table.remove acquire_lock release_lock
  simp only [hl, h1, h2]

theorem update_chunk_eq_lock_busy {fs : FS K T} {cpath lockP : List Char}
    {g : List (Hash K × T)} {replace : Bool} {d : FileData K T}
    (hl : fs lockP = some d) :
    update_chunk fs cpath lockP g replace
      = (fs, .error (.io .AcquireLock (some lockP))) := by
  unfold update_chunk acquire_lock
  simp only [hl]

theorem update_chunk_eq_load_error {fs : FS K T} {cpath lockP : List Char}
    {g : List (Hash K × T)} {replace : Bool} {e : TableError}
    (hne : cpath ≠ lockP) (hl : fs lockP = none)
    (hload : load_chunk fs cpath = .error e) :
    update_chunk fs cpath lockP g replace
      = (fsUpdate fs lockP (some .marker), .error e) := by
  have h1 : load_chunk (fsUpdate fs lockP (some .marker)) cpath = .error e := by
    rw [load_chunk_congr (fsUpdate_ne fs (some FileData.marker) hne), hload]
  unfold update_chunk acquire_lock
  simp only [hl, h1]

theorem update_chunk_eq_ok {fs : FS K T} {cpath lockP : List Char}
    {g : List (Hash K × T)} {replace : Bool} {old : List (Hash K × T)}
    (hne : cpath ≠ lockP) (hl : fs lockP = none)
    (hload : load_chunk fs cpath = .ok old) :
    update_chunk fs cpath lockP g replace
      = (fsUpdate
          (write_chunk (fsUpdate fs lockP (some .marker)) cpath (applyNew old g replace).1)
          lockP none,
         .ok (applyNew old g replace).2) := by
  have h1 : load_chunk (fsUpdate fs lockP (some .marker)) cpath = .ok old := by
    rw [load_chunk_congr (fsUpdate_ne fs (some FileData.marker) hne), hload]
  have h2 : write_chunk (fsUpdate fs lockP (some FileData.marker)) cpath
      (applyNew old g replace).1 lockP = some FileData.marker := by
    rw [write_chunk, fsUpdate_ne _ _ (Ne.symm hne), fsUpdate_self]
  unfold update_chunk acquire_lock release_lock
  simp only [hl, h1, h2]

theorem set_ok_cases {t : Table K C T} {hCK : C ≤ K} {fs : FS K T} {hash : Hash K}
    {item : T} (h : (t.set hCK fs hash item).2 = .ok ()) :
    ∃ old, fs (t.get_lock_path (get_chunk_hash hash hCK)) = none ∧
      load_chunk fs (t.get_chunk_path (get_chunk_hash hash hCK)) = .ok old ∧
      t.set hCK fs hash item
        = (fsUpdate
            (write_chunk
              (fsUpdate fs (t.get_lock_path (get_chunk_hash hash hCK)) (some .marker))
              (t.get_chunk_path (get_chunk_hash hash hCK)) (mapInsert old hash item))
            (t.get_lock_path (get_chunk_hash hash hCK)) none, .ok ()) := by
  cases hl : fs (t.get_lock_path (get_chunk_hash hash hCK)) with
  | some d => rw [set_eq_lock_busy hl] at h; simp at h
  | none =>
    cases hload : load_chunk fs (t.get_chunk_path (get_chunk_hash hash hCK)) with
    | error e => rw [set_eq_load_error hl hload] at h; simp at h
    | ok old => exact ⟨old, rfl, rfl, set_eq_ok hl hload⟩

theorem set_ok_frame {t : Table K C T} {hCK : C ≤ K} {fs : FS K T} {hash : Hash K}
    {item : T} (h : (t.set hCK fs hash item).2 = .ok ()) :
    ∀ p, p ≠ t.get_chunk_path (get_chunk_hash hash hCK) →
      (t.set hCK fs hash item).1 p = fs p := by
  obtain ⟨old, hl, hload, heq⟩ := set_ok_cases h
  intro p hp
  rw [heq]
  dsimp only
  by_cases hpl : p = t.get_lock_path (get_chunk_hash hash hCK)
  · rw [hpl, fsUpdate_self]
    exact hl.symm
  · rw [fsUpdate_ne _ _ hpl, write_chunk, fsUpdate_ne _ _ hp, fsUpdate_ne _ _ hpl]

/-! ## Claims C1, C2, C5, C10 -/

/-- C1: after a successful `Table::set(k, v)`, `Table::get(k)` on the
resulting state returns `Some(v)`, for any prior table state; in particular
after `set(k, v1)` then `set(k, v2)` (both successful), `get(k)` returns
`Some(v2)` — last write wins. -/
theorem spec_c1_set_get (t : Table K C T) (hCK : C ≤ K) (fs : FS K T)
    (hash : Hash K) (v v1 v2 : T) :
    ((t.set hCK fs hash v).2 = .ok () →
      t.get hCK (t.set hCK fs hash v).1 hash = .ok (some v)) ∧
    ((t.set hCK fs hash v1).2 = .ok () →
      (t.set hCK (t.set hCK fs hash v1).1 hash v2).2 = .ok () →
      t.get hCK (t.set hCK (t.set hCK fs hash v1).1 hash v2).1 hash
        = .ok (some v2)) := by
  have main : ∀ (fs0 : FS K T) (w : T), (t.set hCK fs0 hash w).2 = .ok () →
      t.get hCK (t.set hCK fs0 hash w).1 hash = .ok (some w) := by
    intro fs0 w h
    obtain ⟨old, hl, hload, heq⟩ := set_ok_cases h
    have hcv : (t.set hCK fs0 hash w).1 (t.get_chunk_path (get_chunk_hash hash hCK))
        = some (.chunk (mapInsert old hash w)) := by
      rw [heq]
      dsimp only
      rw [fsUpdate_ne _ _ (get_chunk_path_ne_lock_path t _ _), write_chunk, fsUpdate_self]
    rw [get_of_load (load_chunk_of_chunk hcv), mapLookup_insert_self]
  exact ⟨main fs v, fun h1 h2 => main _ v2 h2⟩

/-- C10: a successful `Table::set(k, v)` changes the filesystem only at the
shard file of `k`'s shard (every other path, including every other shard's
chunk file, is byte-for-byte unchanged, and the lock marker is restored to
absent), and the value observed by `get(k1)` for any `k1 ≠ k` is unchanged. -/
theorem spec_c10_set_frame (t : Table K C T) (hCK : C ≤ K) (fs : FS K T)
    (hash : Hash K) (item : T) (h : (t.set hCK fs hash item).2 = .ok ()) :
    (∀ p, p ≠ t.get_chunk_path (get_chunk_hash hash hCK) →
      (t.set hCK fs hash item).1 p = fs p) ∧
    (∀ k1, k1 ≠ hash →
      t.get hCK (t.set hCK fs hash item).1 k1 = t.get hCK fs k1) ∧
    (∀ c1, c1 ≠ get_chunk_hash hash hCK →
      (t.set hCK fs hash item).1 (t.get_chunk_path c1) = fs (t.get_chunk_path c1)) := by
  obtain ⟨old, hl, hload, heq⟩ := set_ok_cases h
  have hframe := set_ok_frame h
  refine ⟨hframe, ?_, ?_⟩
  · intro k1 hk1
    by_cases hsh : get_chunk_hash k1 hCK = get_chunk_hash hash hCK
    · have hcv : (t.set hCK fs hash item).1 (t.get_chunk_path (get_chunk_hash hash hCK))
          = some (.chunk (mapInsert old hash item)) := by
        rw [heq]
        dsimp only
        rw [fsUpdate_ne _ _ (get_chunk_path_ne_lock_path t _ _), write_chunk, fsUpdate_self]
      have hafter : load_chunk (t.set hCK fs hash item).1
          (t.get_chunk_path (get_chunk_hash k1 hCK)) = .ok (mapInsert old hash item) := by
        rw [hsh]
        exact load_chunk_of_chunk hcv
      have hbefore : load_chunk fs (t.get_chunk_path (get_chunk_hash k1 hCK)) = .ok old := by
        rw [hsh]
        exact hload
      rw [get_of_load hafter, get_of_load hbefore,
        mapLookup_insert_ne old item (Ne.symm hk1)]
    · have hpne : t.get_chunk_path (get_chunk_hash k1 hCK)
          ≠ t.get_chunk_path (get_chunk_hash hash hCK) :=
        fun hc => hsh (get_chunk_path_inj t hc)
      exact get_congr t hCK k1 (hframe _ hpne)
  · intro c1 hc1
    exact hframe _ (fun hc => hc1 (get_chunk_path_inj t hc))

/-- C5: removing a key whose shard has never been written (no shard file, and
no lock marker in flight) succeeds, returns "not found", and leaves the
filesystem exactly as it was — in particular the shard file still does not
exist. -/
theorem spec_c5_remove_missing (t : Table K C T) (hCK : C ≤ K) (fs : FS K T)
    (hash : Hash K)
    (hc : fs (t.get_chunk_path (get_chunk_hash hash hCK)) = none)
    (hl : fs (t.get_lock_path (get_chunk_hash hash hCK)) = none) :
    (t.remove hCK fs hash).2 = .ok none ∧
    ∀ p, (t.remove hCK fs hash).1 p = fs p := by
  have hload : load_chunk fs (t.get_chunk_path (get_chunk_hash hash hCK)) = .ok [] := by
    unfold load_chunk
    rw [hc]
  have heq := remove_eq_ok hl hload
  rw [show mapLookup ([] : List (Hash K × T)) hash = none from rfl] at heq
  simp only [Option.isSome_none, Bool.false_eq_true, if_false] at heq
  constructor
  · rw [heq]
  · intro p
    rw [heq]
    dsimp only
    by_cases hpl : p = t.get_lock_path (get_chunk_hash hash hCK)
    · rw [hpl, fsUpdate_self]
      exact hl.symm
    · rw [fsUpdate_ne _ _ hpl, fsUpdate_ne _ _ hpl]

theorem remove_ok_lock {t : Table K C T} {hCK : C ≤ K} {fs : FS K T} {hash : Hash K}
    {o : Option T} (h : (t.remove hCK fs hash).2 = .ok o) :
    (t.remove hCK fs hash).1 (t.get_lock_path (get_chunk_hash hash hCK)) = none := by
  cases hl : fs (t.get_lock_path (get_chunk_hash hash hCK)) with
  | some d => rw [remove_eq_lock_busy hl] at h; simp at h
  | none =>
    cases hload : load_chunk fs (t.get_chunk_path (get_chunk_hash hash hCK)) with
    | error e => rw [remove_eq_load_error hl hload] at h; simp at h
    | ok old =>
      rw [remove_eq_ok hl hload]
      dsimp only
      rw [fsUpdate_self]

theorem update_chunk_ok_lock {fs : FS K T} {t : Table K C T} {ch : Hash C}
    {g : List (Hash K × T)} {replace : Bool} {n : Nat}
    (h : (update_chunk fs (t.get_chunk_path ch) (t.get_lock_path ch) g replace).2 = .ok n) :
    (update_chunk fs (t.get_chunk_path ch) (t.get_lock_path ch) g replace).1
      (t.get_lock_path ch) = none := by
  have hne : t.get_chunk_path ch ≠ t.get_lock_path ch := get_chunk_path_ne_lock_path t _ _
  cases hl : fs (t.get_lock_path ch) with
  | some d => rw [update_chunk_eq_lock_busy hl] at h; simp at h
  | none =>
    cases hload : load_chunk fs (t.get_chunk_path ch) with
    | error e => rw [update_chunk_eq_load_error hne hl hload] at h; simp at h
    | ok old =>
      rw [update_chunk_eq_ok hne hl hload]
      dsimp only
      rw [fsUpdate_self]

/-- C2 (amended): every write operation that acquires a shard lock deletes
the marker on its success path — after a successful `set`, `remove`, or
per-shard `update_chunk`, the marker file is absent.  On an error exit after
acquisition (a read, deserialize, or write failure) the source propagates the
error with `?` before reaching `release_lock`, so the marker is not deleted
and persists (see the counterexample). -/
theorem spec_c2_lock_release (t : Table K C T) (hCK : C ≤ K) (fs : FS K T)
    (hash : Hash K) (item : T) (ch : Hash C) (g : List (Hash K × T)) (replace : Bool) :
    ((t.set hCK fs hash item).2 = .ok () →
      (t.set hCK fs hash item).1 (t.get_lock_path (get_chunk_hash hash hCK)) = none) ∧
    (∀ o, (t.remove hCK fs hash).2 = .ok o →
      (t.remove hCK fs hash).1 (t.get_lock_path (get_chunk_hash hash hCK)) = none) ∧
    (∀ n, (update_chunk fs (t.get_chunk_path ch) (t.get_lock_path ch) g replace).2 = .ok n →
      (update_chunk fs (t.get_chunk_path ch) (t.get_lock_path ch) g replace).1
        (t.get_lock_path ch) = none) := by
  refine ⟨?_, fun o h => remove_ok_lock h, fun n h => update_chunk_ok_lock h⟩
  intro h
  obtain ⟨old, hl, hload, heq⟩ := set_ok_cases h
  rw [heq]
  dsimp only
  rw [fsUpdate_self]

/-! ## Concrete witnesses for the table claims -/

def wTable : Table 1 1 Nat := ⟨['t']⟩

def wEmptyFS : FS 1 Nat := fun _ => none

def oneHash1 : Hash 1 := ⟨[1], rfl, by decide⟩

/-- Witness: set-then-get and last-write-wins on a concrete empty table. -/
theorem spec_c1_witness :
    wTable.get (le_refl 1) (wTable.set (le_refl 1) wEmptyFS zeroHash1 7).1 zeroHash1
      = .ok (some 7) ∧
    wTable.get (le_refl 1)
      (wTable.set (le_refl 1) (wTable.set (le_refl 1) wEmptyFS zeroHash1 7).1 zeroHash1 8).1
      zeroHash1 = .ok (some 8) :=
  ⟨(spec_c1_set_get wTable (le_refl 1) wEmptyFS zeroHash1 7 7 8).1 rfl,
   (spec_c1_set_get wTable (le_refl 1) wEmptyFS zeroHash1 7 7 8).2 rfl rfl⟩

/-- C2 counterexample: starting from a state whose shard file exists but does
not decode (and with no marker present), `Table::set` acquires the lock,
fails deserializing, and returns the error with the lock marker file still
present — the marker persists after the operation has returned. -/
def corruptFS : FS 1 Nat :=
  fun p =>
    if p = wTable.get_chunk_path (get_chunk_hash zeroHash1 (le_refl 1)) then some .corrupt
    else none

theorem spec_c2_counterexample :
    (wTable.set (le_refl 1) corruptFS zeroHash1 7).2
      = .error (.yaml .Deserialize
          (some (wTable.get_chunk_path (get_chunk_hash zeroHash1 (le_refl 1))))) ∧
    (wTable.set (le_refl 1) corruptFS zeroHash1 7).1
      (wTable.get_lock_path (get_chunk_hash zeroHash1 (le_refl 1))) = some .marker :=
  ⟨rfl, rfl⟩

/-- Witness: the amended C2 theorem applied on a concrete empty table. -/
theorem spec_c2_witness :
    (wTable.set (le_refl 1) wEmptyFS zeroHash1 7).1
      (wTable.get_lock_path (get_chunk_hash zeroHash1 (le_refl 1))) = none ∧
    (wTable.remove (le_refl 1) wEmptyFS zeroHash1).1
      (wTable.get_lock_path (get_chunk_hash zeroHash1 (le_refl 1))) = none ∧
    (update_chunk wEmptyFS (wTable.get_chunk_path (get_chunk_hash zeroHash1 (le_refl 1)))
      (wTable.get_lock_path (get_chunk_hash zeroHash1 (le_refl 1))) [] true).1
      (wTable.get_lock_path (get_chunk_hash zeroHash1 (le_refl 1))) = none :=
  ⟨(spec_c2_lock_release wTable (le_refl 1) wEmptyFS zeroHash1 7
      (get_chunk_hash zeroHash1 (le_refl 1)) [] true).1 rfl,
   (spec_c2_lock_release wTable (le_refl 1) wEmptyFS zeroHash1 7
      (get_chunk_hash zeroHash1 (le_refl 1)) [] true).2.1 none rfl,
   (spec_c2_lock_release wTable (le_refl 1) wEmptyFS zeroHash1 7
      (get_chunk_hash zeroHash1 (le_refl 1)) [] true).2.2 0 rfl⟩

/-- Witness: removing a never-written key on a concrete empty table. -/
theorem spec_c5_witness :
    (wTable.remove (le_refl 1) wEmptyFS zeroHash1).2 = .ok none ∧
    (wTable.remove (le_refl 1) wEmptyFS zeroHash1).1
      (wTable.get_chunk_path (get_chunk_hash zeroHash1 (le_refl 1))) = none :=
  ⟨(spec_c5_remove_missing wTable (le_refl 1) wEmptyFS zeroHash1 rfl rfl).1,
   (spec_c5_remove_missing wTable (le_refl 1) wEmptyFS zeroHash1 rfl rfl).2 _⟩

/-- Witness: the C10 frame theorem applied on a concrete state, for a key in
a different shard. -/
theorem spec_c10_witness :
    (wTable.set (le_refl 1) wEmptyFS zeroHash1 7).1
      (wTable.get_chunk_path (get_chunk_hash oneHash1 (le_refl 1)))
      = wEmptyFS (wTable.get_chunk_path (get_chunk_hash oneHash1 (le_refl 1))) ∧
    wTable.get (le_refl 1) (wTable.set (le_refl 1) wEmptyFS zeroHash1 7).1 oneHash1
      = wTable.get (le_refl 1) wEmptyFS oneHash1 :=
  ⟨(spec_c10_set_frame wTable (le_refl 1) wEmptyFS zeroHash1 7 rfl).1 _ (by decide),
   (spec_c10_set_frame wTable (le_refl 1) wEmptyFS zeroHash1 7 rfl).2.1 oneHash1 (by decide)⟩

/-! ## FileTable (src/file_table.rs) and claim C9 -/

/-- File storage table with chunked directories (src/file_table.rs). -/
structure FileTable (K C : Nat) where
  directory : List Char
  extension : List Char

/-- Model of `FileTable::get_path`:
`<directory>/<hex(chunk hash)>/<hex(key)>.<extension>` (PathBuf `join` is the
path separator). -/
def FileTable.get_path (ft : FileTable K C) (hCK : C ≤ K) (hash : Hash K) : List Char :=
  ft.directory ++ '/' ::
    ((get_chunk_hash hash hCK).to_hex ++ '/' :: (hash.to_hex ++ '.' :: ft.extension))

/-- Model of `FileTable::get` (src/file_table.rs): compute the expected path
and return it only when a regular file exists there.  `is_file` is the
read-only metadata predicate of the filesystem; the operation returns
`Option` (its signature cannot carry an error), performs no writes, and
takes no lock — in the embedding it is a pure function of the metadata
predicate. -/
def FileTable.get (ft : FileTable K C) (hCK : C ≤ K) (is_file : List Char → Bool)
    (hash : Hash K) : Option (List Char) :=
  if is_file (ft.get_path hCK hash) then some (ft.get_path hCK hash) else none

/-- The expected path exactly as the specification words it:
`<table_dir>/<hex(shard_id)>/<hex(k)>.<item_ext>`. -/
def specFilePath (ft : FileTable K C) (hCK : C ≤ K) (hash : Hash K) : List Char :=
  ft.directory ++ ['/'] ++ (get_chunk_hash hash hCK).to_hex ++ ['/']
    ++ hash.to_hex ++ ['.'] ++ ft.extension

/-- C9: `FileTable::get(k)` returns `Some(p)` with `p` the expected path
`<table_dir>/<hex(shard_id)>/<hex(k)>.<item_ext>` if and only if a regular
file exists at that path, and `None` otherwise. -/
theorem spec_c9_file_table_get (ft : FileTable K C) (hCK : C ≤ K)
    (is_file : List Char → Bool) (hash : Hash K) :
    (∀ p, ft.get hCK is_file hash = some p ↔
      (is_file (specFilePath ft hCK hash) = true ∧ p = specFilePath ft hCK hash)) ∧
    (ft.get hCK is_file hash = none ↔ is_file (specFilePath ft hCK hash) = false) := by
  have hpath : ft.get_path hCK hash = specFilePath ft hCK hash := by
    simp [FileTable.get_path, specFilePath]
  constructor
  · intro p
    unfold FileTable.get
    rw [hpath]
    cases hf : is_file (specFilePath ft hCK hash) with
    | true => simp [eq_comm]
    | false => simp
  · unfold FileTable.get
    rw [hpath]
    cases hf : is_file (specFilePath ft hCK hash) with
    | true => simp
    | false => simp

def wFileTable : FileTable 1 1 := ⟨['d'], ['b', 'i', 'n']⟩

/-- Witness: the C9 theorem on a concrete file table, for an
everything-exists and a nothing-exists metadata predicate. -/
theorem spec_c9_witness :
    wFileTable.get (le_refl 1) (fun _ => true) zeroHash1
      = some (specFilePath wFileTable (le_refl 1) zeroHash1) ∧
    wFileTable.get (le_refl 1) (fun _ => false) zeroHash1 = none :=
  ⟨((spec_c9_file_table_get wFileTable (le_refl 1) (fun _ => true) zeroHash1).1
      (specFilePath wFileTable (le_refl 1) zeroHash1)).mpr ⟨rfl, rfl⟩,
   ((spec_c9_file_table_get wFileTable (le_refl 1) (fun _ => false) zeroHash1).2).mpr rfl⟩

/-! ## Machinery for set_many: pure facts about applyNew -/

/-- The mapping a shard file decodes to: the stored mapping for a well-formed
shard file, the empty mapping when the file is absent. -/
def loadPure (fs : FS K T) (p : List Char) : List (Hash K × T) :=
  match fs p with
  | some (.chunk m) => m
  | _ => []

theorem loadPure_congr {fs1 fs2 : FS K T} {p : List Char} (h : fs1 p = fs2 p) :
    loadPure fs1 p = loadPure fs2 p := by
  unfold loadPure
  rw [h]

theorem load_chunk_ok_loadPure {fs : FS K T} {p : List Char} {old : List (Hash K × T)}
    (h : load_chunk fs p = .ok old) : old = loadPure fs p := by
  unfold load_chunk read_chunk at h
  unfold loadPure
  cases hc : fs p with
  | none => rw [hc] at h; cases h; rfl
  | some d =>
    rw [hc] at h
    cases d with
    | chunk m => cases h; rfl
    | corrupt => cases h
    | marker => cases h

theorem load_chunk_readable {fs : FS K T} {p : List Char}
    (h : fs p = none ∨ fs p = some (.chunk (loadPure fs p))) :
    load_chunk fs p = .ok (loadPure fs p) := by
  rcases h with h | h
  · unfold load_chunk loadPure
    rw [h]
  · exact load_chunk_of_chunk h

theorem applyNew_lookup_not_mem {g : List (Hash K × T)} {k : Hash K} {replace : Bool} :
    ∀ c : List (Hash K × T), k ∉ g.map Prod.fst →
      mapLookup (applyNew c g replace).1 k = mapLookup c k := by
  induction g with
  | nil => intro c _; rfl
  | cons kv rest ih =>
    obtain ⟨k1, v1⟩ := kv
    intro c hk
    simp only [List.map_cons, List.mem_cons] at hk
    push_neg at hk
    have hne : k1 ≠ k := fun hx => hk.1 hx.symm
    unfold applyNew
    by_cases hb : (replace || !(mapContains c k1)) = true
    · rw [if_pos hb]
      dsimp only
      rw [ih (mapInsert c k1 v1) hk.2, mapLookup_insert_ne c v1 hne]
    · rw [if_neg hb]
      exact ih c hk.2

theorem applyNew_lookup_mem_true {g : List (Hash K × T)} {k : Hash K} {v : T} :
    ∀ c : List (Hash K × T), keysNodup g → (k, v) ∈ g →
      mapLookup (applyNew c g true).1 k = some v := by
  induction g with
  | nil => intro c _ hm; simp at hm
  | cons kv rest ih =>
    obtain ⟨k1, v1⟩ := kv
    intro c hnd hm
    have hnd1 : keysNodup rest := by
      unfold keysNodup at hnd ⊢
      simp only [List.map_cons] at hnd
      exact hnd.of_cons
    rcases List.mem_cons.mp hm with h1 | h1
    · cases h1
      unfold applyNew
      rw [if_pos (by simp)]
      dsimp only
      have hknot : k ∉ rest.map Prod.fst := by
        unfold keysNodup at hnd
        simp only [List.map_cons] at hnd
        exact (List.nodup_cons.mp hnd).1
      rw [applyNew_lookup_not_mem _ hknot, mapLookup_insert_self]
    · unfold applyNew
      rw [if_pos (by simp)]
      dsimp only
      exact ih (mapInsert c k1 v1) hnd1 h1

theorem applyNew_lookup_mem_false_none {g : List (Hash K × T)} {k : Hash K} {v : T} :
    ∀ c : List (Hash K × T), keysNodup g → (k, v) ∈ g → mapLookup c k = none →
      mapLookup (applyNew c g false).1 k = some v := by
  induction g with
  | nil => intro c _ hm; simp at hm
  | cons kv rest ih =>
    obtain ⟨k1, v1⟩ := kv
    intro c hnd hm hc
    have hnd1 : keysNodup rest := by
      unfold keysNodup at hnd ⊢
      simp only [List.map_cons] at hnd
      exact hnd.of_cons
    rcases List.mem_cons.mp hm with h1 | h1
    · cases h1
      unfold applyNew
      have hcont : mapContains c k = false := by
        unfold mapContains
        rw [hc]
        rfl
      rw [if_pos (by simp [hcont])]
      dsimp only
      have hknot : k ∉ rest.map Prod.fst := by
        unfold keysNodup at hnd
        simp only [List.map_cons] at hnd
        exact (List.nodup_cons.mp hnd).1
      rw [applyNew_lookup_not_mem _ hknot, mapLookup_insert_self]
    · have hk1 : k1 ≠ k := by
        unfold keysNodup at hnd
        simp only [List.map_cons] at hnd
        have hkmem : k ∈ rest.map Prod.fst :=
          List.mem_map.mpr ⟨(k, v), h1, rfl⟩
        exact fun hx => (List.nodup_cons.mp hnd).1 (hx ▸ hkmem)
      unfold applyNew
      by_cases hb : (false || !(mapContains c k1)) = true
      · rw [if_pos hb]
        dsimp only
        exact ih (mapInsert c k1 v1) hnd1 h1 (by rw [mapLookup_insert_ne c v1 hk1, hc])
      · rw [if_neg hb]
        exact ih c hnd1 h1 hc

theorem applyNew_lookup_mem_false_some {g : List (Hash K × T)} {k : Hash K} {v w : T} :
    ∀ c : List (Hash K × T), keysNodup g → (k, v) ∈ g → mapLookup c k = some w →
      mapLookup (applyNew c g false).1 k = some w := by
  induction g with
  | nil => intro c _ hm; simp at hm
  | cons kv rest ih =>
    obtain ⟨k1, v1⟩ := kv
    intro c hnd hm hc
    have hnd1 : keysNodup rest := by
      unfold keysNodup at hnd ⊢
      simp only [List.map_cons] at hnd
      exact hnd.of_cons
    rcases List.mem_cons.mp hm with h1 | h1
    · cases h1
      unfold applyNew
      have hcont : mapContains c k = true := by
        unfold mapContains
        rw [hc]
        rfl
      rw [if_neg (by simp [hcont])]
      have hknot : k ∉ rest.map Prod.fst := by
        unfold keysNodup at hnd
        simp only [List.map_cons] at hnd
        exact (List.nodup_cons.mp hnd).1
      rw [applyNew_lookup_not_mem _ hknot, hc]
    · have hk1 : k1 ≠ k := by
        unfold keysNodup at hnd
        simp only [List.map_cons] at hnd
        have hkmem : k ∈ rest.map Prod.fst :=
          List.mem_map.mpr ⟨(k, v), h1, rfl⟩
        exact fun hx => (List.nodup_cons.mp hnd).1 (hx ▸ hkmem)
      unfold applyNew
      by_cases hb : (false || !(mapContains c k1)) = true
      · rw [if_pos hb]
        dsimp only
        exact ih (mapInsert c k1 v1) hnd1 h1 (by rw [mapLookup_insert_ne c v1 hk1, hc])
      · rw [if_neg hb]
        exact ih c hnd1 h1 hc

theorem applyNew_count_true {g : List (Hash K × T)} :
    ∀ c : List (Hash K × T), (applyNew c g true).2 = g.length := by
  induction g with
  | nil => intro c; rfl
  | cons kv rest ih =>
    obtain ⟨k1, v1⟩ := kv
    intro c
    unfold applyNew
    rw [if_pos (by simp)]
    dsimp only
    rw [ih (mapInsert c k1 v1)]
    simp

theorem applyNew_count_false_aux {g : List (Hash K × T)} :
    ∀ c c' : List (Hash K × T), keysNodup g →
      (∀ kv ∈ g, mapContains c' kv.1 = mapContains c kv.1) →
      (applyNew c' g false).2
        = (g.filter (fun kv => !(mapContains c kv.1))).length := by
  induction g with
  | nil => intro c c' _ _; rfl
  | cons kv rest ih =>
    obtain ⟨k1, v1⟩ := kv
    intro c c' hnd hagree
    have hnd1 : keysNodup rest := by
      unfold keysNodup at hnd ⊢
      simp only [List.map_cons] at hnd
      exact hnd.of_cons
    have hk1not : k1 ∉ rest.map Prod.fst := by
      unfold keysNodup at hnd
      simp only [List.map_cons] at hnd
      exact (List.nodup_cons.mp hnd).1
    have hhead := hagree (k1, v1) (by simp)
    unfold applyNew
    by_cases hb : mapContains c' k1 = true
    · have hcb : mapContains c k1 = true := by rw [← hhead]; exact hb
      rw [if_neg (by simp [hb])]
      rw [ih c c' hnd1 (fun kv hkv => hagree kv (List.mem_cons_of_mem _ hkv))]
      simp [List.filter, hcb]
    · have hb' : mapContains c' k1 = false := by
        cases hx : mapContains c' k1
        · rfl
        · exact absurd hx hb
      have hcb : mapContains c k1 = false := by rw [← hhead]; exact hb'
      rw [if_pos (by simp [hb'])]
      dsimp only
      rw [ih c (mapInsert c' k1 v1) hnd1 (fun kv hkv => by
        have hne : k1 ≠ kv.1 := by
          intro hx
          exact hk1not (List.mem_map.mpr ⟨kv, hkv, hx.symm⟩)
        rw [mapContains_insert_ne c' v1 hne]
        exact hagree kv (List.mem_cons_of_mem _ hkv))]
      simp [List.filter, hcb]

theorem applyNew_count_false {g : List (Hash K × T)} (c : List (Hash K × T))
    (hnd : keysNodup g) :
    (applyNew c g false).2 = (g.filter (fun kv => !(mapContains c kv.1))).length :=
  applyNew_count_false_aux c c hnd (fun _ _ => rfl)

/-! ## Machinery for set_many: facts about group_by_chunk -/

/-- Concatenation of the group contents, in group order. -/
def groupsJoin (gs : List (Hash C × List (Hash K × T))) : List (Hash K × T) :=
  match gs with
  | [] => []
  | cg :: rest => cg.2 ++ groupsJoin rest

/-- Every group's content is routed to its own chunk hash. -/
def goodGroups (hCK : C ≤ K) (gs : List (Hash C × List (Hash K × T))) : Prop :=
  ∀ cg ∈ gs, ∀ kv ∈ cg.2, get_chunk_hash kv.1 hCK = cg.1

theorem addToGroup_fst (gs : List (Hash C × List (Hash K × T))) (ch : Hash C)
    (k : Hash K) (v : T) :
    (addToGroup gs ch k v).map Prod.fst
      = if ch ∈ gs.map Prod.fst then gs.map Prod.fst else gs.map Prod.fst ++ [ch] := by
  induction gs with
  | nil => simp [addToGroup]
  | cons cg rest ih =>
    obtain ⟨c1, g⟩ := cg
    by_cases hc : c1 = ch
    · subst hc
      simp [addToGroup]
    · have hne : ¬ ch = c1 := fun hx => hc hx.symm
      simp only [addToGroup, if_neg hc, List.map_cons, ih, List.mem_cons]
      by_cases hm : ch ∈ rest.map Prod.fst
      · simp [hm, hne]
      · simp [hm, hne]

theorem addToGroup_fst_nodup {gs : List (Hash C × List (Hash K × T))} {ch : Hash C}
    {k : Hash K} {v : T} (h : (gs.map Prod.fst).Nodup) :
    ((addToGroup gs ch k v).map Prod.fst).Nodup := by
  rw [addToGroup_fst]
  by_cases hm : ch ∈ gs.map Prod.fst
  · rw [if_pos hm]
    exact h
  · rw [if_neg hm]
    rw [List.nodup_append]
    refine ⟨h, List.nodup_singleton ch, ?_⟩
    intro a ha hb
    simp only [List.mem_singleton] at hb
    subst hb
    exact hm ha

theorem group_chunks_fst_nodup (hCK : C ≤ K) :
    ∀ (items : List (Hash K × T)) (gs : List (Hash C × List (Hash K × T))),
      (gs.map Prod.fst).Nodup → ((group_chunks hCK gs items).map Prod.fst).Nodup := by
  intro items
  induction items with
  | nil => intro gs h; exact h
  | cons kv rest ih =>
    obtain ⟨k, v⟩ := kv
    intro gs h
    exact ih _ (addToGroup_fst_nodup h)

theorem group_by_chunk_fst_nodup (hCK : C ≤ K) (items : List (Hash K × T)) :
    ((group_by_chunk hCK items).map Prod.fst).Nodup :=
  group_chunks_fst_nodup hCK items [] (by simp)

theorem addToGroup_good {hCK : C ≤ K} {gs : List (Hash C × List (Hash K × T))}
    {ch : Hash C} {k : Hash K} {v : T} (hg : goodGroups hCK gs)
    (hk : get_chunk_hash k hCK = ch) : goodGroups hCK (addToGroup gs ch k v) := by
  induction gs with
  | nil =>
    intro cg hcg kv hkv
    simp only [addToGroup, List.mem_singleton] at hcg
    subst hcg
    simp only [List.mem_singleton] at hkv
    subst hkv
    exact hk
  | cons cg1 rest ih =>
    obtain ⟨c1, g⟩ := cg1
    by_cases hc : c1 = ch
    · intro cg hcg kv hkv
      rw [show addToGroup ((c1, g) :: rest) ch k v = (c1, mapInsert g k v) :: rest from by
        simp [addToGroup, hc]] at hcg
      rcases List.mem_cons.mp hcg with h1 | h1
      · subst h1
        rcases mem_mapInsert kv hkv with h2 | h2
        · exact hg (c1, g) (by simp) kv h2
        · rw [h2]
          show get_chunk_hash k hCK = c1
          rw [hk]
          exact hc.symm
      · exact hg cg (List.mem_cons_of_mem _ h1) kv hkv
    · intro cg hcg kv hkv
      rw [show addToGroup ((c1, g) :: rest) ch k v = (c1, g) :: addToGroup rest ch k v from by
        simp [addToGroup, hc]] at hcg
      rcases List.mem_cons.mp hcg with h1 | h1
      · subst h1
        exact hg (c1, g) (by simp) kv hkv
      · exact ih (fun cg2 hcg2 => hg cg2 (List.mem_cons_of_mem _ hcg2)) cg h1 kv hkv

theorem group_chunks_good (hCK : C ≤ K) :
    ∀ (items : List (Hash K × T)) (gs : List (Hash C × List (Hash K × T))),
      goodGroups hCK gs → goodGroups hCK (group_chunks hCK gs items) := by
  intro items
  induction items with
  | nil => intro gs h; exact h
  | cons kv rest ih =>
    obtain ⟨k, v⟩ := kv
    intro gs h
    exact ih _ (addToGroup_good h rfl)

theorem group_by_chunk_good (hCK : C ≤ K) (items : List (Hash K × T)) :
    goodGroups hCK (group_by_chunk hCK items) :=
  group_chunks_good hCK items [] (by intro cg hcg; simp at hcg)

theorem addToGroup_join_perm {gs : List (Hash C × List (Hash K × T))} {ch : Hash C}
    {k : Hash K} {v : T} (hk : k ∉ (groupsJoin gs).map Prod.fst) :
    List.Perm (groupsJoin (addToGroup gs ch k v)) (groupsJoin gs ++ [(k, v)]) := by
  induction gs with
  | nil => exact List.Perm.refl _
  | cons cg rest ih =>
    obtain ⟨c1, g⟩ := cg
    simp only [groupsJoin, List.map_append, List.mem_append] at hk
    push_neg at hk
    by_cases hc : c1 = ch
    · rw [show addToGroup ((c1, g) :: rest) ch k v = (c1, mapInsert g k v) :: rest from by
        simp [addToGroup, hc]]
      show List.Perm (mapInsert g k v ++ groupsJoin rest) ((g ++ groupsJoin rest) ++ [(k, v)])
      have hins : mapInsert g k v = g ++ [(k, v)] :=
        mapInsert_of_lookup_none v (mapLookup_none_of_not_mem hk.1)
      rw [hins, List.append_assoc, List.append_assoc]
      exact List.Perm.append_left g
        (List.perm_append_singleton (k, v) (groupsJoin rest)).symm
    · rw [show addToGroup ((c1, g) :: rest) ch k v = (c1, g) :: addToGroup rest ch k v from by
        simp [addToGroup, hc]]
      show List.Perm (g ++ groupsJoin (addToGroup rest ch k v))
        ((g ++ groupsJoin rest) ++ [(k, v)])
      rw [List.append_assoc]
      exact List.Perm.append_left g (ih hk.2)

theorem group_chunks_join_perm (hCK : C ≤ K) :
    ∀ (items : List (Hash K × T)) (gs : List (Hash C × List (Hash K × T))),
      ((groupsJoin gs ++ items).map Prod.fst).Nodup →
      List.Perm (groupsJoin (group_chunks hCK gs items)) (groupsJoin gs ++ items) := by
  intro items
  induction items with
  | nil =>
    intro gs _
    simp only [group_chunks, List.append_nil]
    exact List.Perm.refl _
  | cons kv rest ih =>
    obtain ⟨k, v⟩ := kv
    intro gs hnd
    have hknotgs : k ∉ (groupsJoin gs).map Prod.fst := by
      rw [List.map_append, List.nodup_append] at hnd
      intro hmem
      exact hnd.2.2 hmem (by simp)
    have hperm1 : List.Perm (groupsJoin (addToGroup gs (get_chunk_hash k hCK) k v))
        (groupsJoin gs ++ [(k, v)]) := addToGroup_join_perm hknotgs
    have hP : List.Perm (groupsJoin (addToGroup gs (get_chunk_hash k hCK) k v) ++ rest)
        (groupsJoin gs ++ (k, v) :: rest) := by
      refine List.Perm.trans (hperm1.append_right rest) ?_
      rw [List.append_assoc]
      exact List.Perm.refl _
    have hndnext : ((groupsJoin (addToGroup gs (get_chunk_hash k hCK) k v) ++ rest).map
        Prod.fst).Nodup := ((hP.map Prod.fst).symm).nodup hnd
    have hrec := ih (addToGroup gs (get_chunk_hash k hCK) k v) hndnext
    simp only [group_chunks]
    exact hrec.trans hP

theorem group_by_chunk_join_perm (hCK : C ≤ K) {items : List (Hash K × T)}
    (hnd : keysNodup items) :
    List.Perm (groupsJoin (group_by_chunk hCK items)) items :=
  group_chunks_join_perm hCK items [] (by simpa [groupsJoin, keysNodup] using hnd)

theorem mem_groupsJoin {gs : List (Hash C × List (Hash K × T))} {kv : Hash K × T} :
    kv ∈ groupsJoin gs ↔ ∃ cg, cg ∈ gs ∧ kv ∈ cg.2 := by
  induction gs with
  | nil => simp [groupsJoin]
  | cons cg rest ih =>
    simp only [groupsJoin, List.mem_append, ih, List.mem_cons]
    constructor
    · rintro (h | ⟨cg1, h1, h2⟩)
      · exact ⟨cg, Or.inl rfl, h⟩
      · exact ⟨cg1, Or.inr h1, h2⟩
    · rintro ⟨cg1, h1 | h1, h2⟩
      · subst h1
        exact Or.inl h2
      · exact Or.inr ⟨cg1, h1, h2⟩

theorem group_snd_sublist {gs : List (Hash C × List (Hash K × T))}
    {cg : Hash C × List (Hash K × T)} (h : cg ∈ gs) :
    cg.2.Sublist (groupsJoin gs) := by
  induction gs with
  | nil => simp at h
  | cons cg1 rest ih =>
    rcases List.mem_cons.mp h with h1 | h1
    · subst h1
      exact List.sublist_append_left _ _
    · exact (ih h1).trans (List.sublist_append_right _ _)

theorem group_keysNodup {hCK : C ≤ K} {items : List (Hash K × T)}
    (hnd : keysNodup items) {cg : Hash C × List (Hash K × T)}
    (h : cg ∈ group_by_chunk hCK items) : keysNodup cg.2 := by
  have hperm := group_by_chunk_join_perm hCK hnd
  have hjoin : ((groupsJoin (group_by_chunk hCK items)).map Prod.fst).Nodup :=
    ((hperm.map Prod.fst).symm).nodup hnd
  exact ((group_snd_sublist h).map Prod.fst).nodup hjoin

theorem group_mem_items {hCK : C ≤ K} {items : List (Hash K × T)}
    (hnd : keysNodup items) {cg : Hash C × List (Hash K × T)}
    (hcg : cg ∈ group_by_chunk hCK items) {kv : Hash K × T} (hkv : kv ∈ cg.2) :
    kv ∈ items :=
  (group_by_chunk_join_perm hCK hnd).mem_iff.mp (mem_groupsJoin.mpr ⟨cg, hcg, hkv⟩)

theorem items_mem_group {hCK : C ≤ K} {items : List (Hash K × T)}
    (hnd : keysNodup items) {k : Hash K} {v : T} (h : (k, v) ∈ items) :
    ∃ g, (get_chunk_hash k hCK, g) ∈ group_by_chunk hCK items ∧ (k, v) ∈ g := by
  have hj : (k, v) ∈ groupsJoin (group_by_chunk hCK items) :=
    (group_by_chunk_join_perm hCK hnd).mem_iff.mpr h
  obtain ⟨cg, hcg, hkv⟩ := mem_groupsJoin.mp hj
  have hgood := group_by_chunk_good hCK items cg hcg (k, v) hkv
  obtain ⟨c1, g⟩ := cg
  have hc1 : get_chunk_hash k hCK = c1 := hgood
  refine ⟨g, ?_, hkv⟩
  rw [hc1]
  exact hcg

theorem groupsJoin_length (gs : List (Hash C × List (Hash K × T))) :
    (groupsJoin gs).length = (gs.map (fun cg => cg.2.length)).sum := by
  induction gs with
  | nil => rfl
  | cons cg rest ih => simp [groupsJoin, ih]

theorem groupsJoin_filter_length (Q : Hash K × T → Bool)
    (gs : List (Hash C × List (Hash K × T))) :
    ((groupsJoin gs).filter Q).length
      = (gs.map (fun cg => (cg.2.filter Q).length)).sum := by
  induction gs with
  | nil => rfl
  | cons cg rest ih => simp [groupsJoin, List.filter_append, ih]

/-! ## Machinery for set_many: collected outcomes and zipped results -/

theorem collectErrors_nil_all_ok {rs : List (Except TableError Nat)}
    (h : collectErrors rs = []) : ∀ r ∈ rs, ∃ n, r = .ok n := by
  induction rs with
  | nil => intro r hr; simp at hr
  | cons r0 rest ih =>
    intro r hr
    cases r0 with
    | ok n =>
      rcases List.mem_cons.mp hr with h1 | h1
      · exact ⟨n, by rw [h1]⟩
      · exact ih (by simpa [collectErrors] using h) r h1
    | error e => simp [collectErrors] at h

theorem collectErrors_length_le (rs : List (Except TableError Nat)) :
    (collectErrors rs).length ≤ rs.length := by
  induction rs with
  | nil => simp [collectErrors]
  | cons r rest ih =>
    cases r with
    | ok n =>
      simp only [collectErrors, List.length_cons]
      omega
    | error e =>
      simp only [collectErrors, List.length_cons]
      omega

theorem mem_zip_exists {α β : Type} :
    ∀ (l1 : List α) (l2 : List β), l1.length = l2.length →
      ∀ a ∈ l1, ∃ b, (a, b) ∈ l1.zip l2 := by
  intro l1
  induction l1 with
  | nil => intro l2 _ a ha; simp at ha
  | cons x rest ih =>
    intro l2 hlen a ha
    cases l2 with
    | nil => simp at hlen
    | cons y yrest =>
      rcases List.mem_cons.mp ha with h1 | h1
      · exact ⟨y, by rw [h1, List.zip_cons_cons]; exact List.mem_cons_self _ _⟩
      · obtain ⟨b, hb⟩ := ih yrest (by simpa using hlen) a h1
        exact ⟨b, by rw [List.zip_cons_cons]; exact List.mem_cons_of_mem _ hb⟩

theorem collectAdded_spec {β : Type} (f : β → Nat) :
    ∀ (groups : List β) (rs : List (Except TableError Nat)),
      rs.length = groups.length →
      (∀ cg r, (cg, r) ∈ groups.zip rs → ∀ n, r = .ok n → n = f cg) →
      collectErrors rs = [] →
      collectAdded rs = (groups.map f).sum := by
  intro groups
  induction groups with
  | nil =>
    intro rs hlen _ _
    cases rs with
    | nil => rfl
    | cons r rest => simp at hlen
  | cons cg rest ih =>
    intro rs hlen hspec herr
    cases rs with
    | nil => simp at hlen
    | cons r rrest =>
      cases r with
      | error e => simp [collectErrors] at herr
      | ok n =>
        have hn : n = f cg :=
          hspec cg (.ok n)
            (by rw [List.zip_cons_cons]; exact List.mem_cons_self _ _) n rfl
        have hrec := ih rrest (by simpa using hlen)
          (fun cg1 r1 hm n1 hr1 =>
            hspec cg1 r1
              (by rw [List.zip_cons_cons]; exact List.mem_cons_of_mem _ hm) n1 hr1)
          (by simpa [collectErrors] using herr)
        simp only [collectAdded, List.map_cons, List.sum_cons, hrec, hn]

/-! ## Machinery for set_many: per-shard update facts and the fan-out -/

theorem load_chunk_ok_readable {fs : FS K T} {p : List Char} {old : List (Hash K × T)}
    (h : load_chunk fs p = .ok old) :
    fs p = none ∨ fs p = some (.chunk (loadPure fs p)) := by
  unfold load_chunk read_chunk at h
  unfold loadPure
  cases hc : fs p with
  | none => exact Or.inl rfl
  | some d =>
    rw [hc] at h
    cases d with
    | chunk m => exact Or.inr rfl
    | corrupt => cases h
    | marker => cases h

theorem paths_ne_of_hash_ne (t : Table K C T) {c1 c2 : Hash C} (h : c1 ≠ c2) :
    t.get_chunk_path c1 ≠ t.get_chunk_path c2 :=
  fun hc => h (get_chunk_path_inj t hc)

theorem lock_paths_ne_of_hash_ne (t : Table K C T) {c1 c2 : Hash C} (h : c1 ≠ c2) :
    t.get_lock_path c1 ≠ t.get_lock_path c2 :=
  fun hc => h (get_lock_path_inj t hc)

theorem update_chunk_frame {fs : FS K T} {cpath lockP : List Char}
    {g : List (Hash K × T)} {replace : Bool} (hne : cpath ≠ lockP) :
    ∀ p, p ≠ cpath → p ≠ lockP →
      (update_chunk fs cpath lockP g replace).1 p = fs p := by
  intro p hpc hpl
  cases hl : fs lockP with
  | some d => rw [update_chunk_eq_lock_busy hl]
  | none =>
    cases hload : load_chunk fs cpath with
    | error e =>
      rw [update_chunk_eq_load_error hne hl hload]
      dsimp only
      rw [fsUpdate_ne _ _ hpl]
    | ok old =>
      rw [update_chunk_eq_ok hne hl hload]
      dsimp only
      rw [fsUpdate_ne _ _ hpl, write_chunk, fsUpdate_ne _ _ hpc, fsUpdate_ne _ _ hpl]

theorem update_chunk_ok_spec {fs : FS K T} {cpath lockP : List Char}
    {g : List (Hash K × T)} {replace : Bool} {n : Nat} (hne : cpath ≠ lockP)
    (h : (update_chunk fs cpath lockP g replace).2 = .ok n) :
    fs lockP = none ∧
    (fs cpath = none ∨ fs cpath = some (.chunk (loadPure fs cpath))) ∧
    (update_chunk fs cpath lockP g replace).1 cpath
      = some (.chunk (applyNew (loadPure fs cpath) g replace).1) ∧
    n = (applyNew (loadPure fs cpath) g replace).2 ∧
    (update_chunk fs cpath lockP g replace).1 lockP = none := by
  cases hl : fs lockP with
  | some d => rw [update_chunk_eq_lock_busy hl] at h; simp at h
  | none =>
    cases hload : load_chunk fs cpath with
    | error e => rw [update_chunk_eq_load_error hne hl hload] at h; simp at h
    | ok old =>
      have hol : old = loadPure fs cpath := load_chunk_ok_loadPure hload
      subst hol
      refine ⟨rfl, load_chunk_ok_readable hload, ?_, ?_, ?_⟩
      · rw [update_chunk_eq_ok hne hl hload]
        dsimp only
        rw [fsUpdate_ne _ _ hne, write_chunk, fsUpdate_self]
      · rw [update_chunk_eq_ok hne hl hload] at h
        dsimp only at h
        cases h
        rfl
      · rw [update_chunk_eq_ok hne hl hload]
        dsimp only
        rw [fsUpdate_self]

theorem run_chunks_spec (t : Table K C T) (replace : Bool) :
    ∀ (groups : List (Hash C × List (Hash K × T))) (fs : FS K T),
      (groups.map Prod.fst).Nodup →
      ((run_chunks t replace fs groups).2.length = groups.length ∧
       (∀ p, (∀ cg ∈ groups, p ≠ t.get_chunk_path cg.1 ∧ p ≠ t.get_lock_path cg.1) →
         (run_chunks t replace fs groups).1 p = fs p) ∧
       (∀ cg r, (cg, r) ∈ groups.zip (run_chunks t replace fs groups).2 →
         ∀ n, r = .ok n →
           (run_chunks t replace fs groups).1 (t.get_chunk_path cg.1)
             = some (.chunk (applyNew (loadPure fs (t.get_chunk_path cg.1)) cg.2 replace).1) ∧
           n = (applyNew (loadPure fs (t.get_chunk_path cg.1)) cg.2 replace).2 ∧
           (fs (t.get_chunk_path cg.1) = none ∨
             fs (t.get_chunk_path cg.1)
               = some (.chunk (loadPure fs (t.get_chunk_path cg.1)))) ∧
           (run_chunks t replace fs groups).1 (t.get_lock_path cg.1) = none)) := by
  intro groups
  induction groups with
  | nil =>
    intro fs _
    refine ⟨rfl, fun p _ => rfl, ?_⟩
    intro cg r hm
    simp [run_chunks] at hm
  | cons cg0 rest ih =>
    obtain ⟨ch, g⟩ := cg0
    intro fs hnd
    have hch : ch ∉ rest.map Prod.fst := (List.nodup_cons.mp hnd).1
    have hndr : (rest.map Prod.fst).Nodup := (List.nodup_cons.mp hnd).2
    have hnecl : t.get_chunk_path ch ≠ t.get_lock_path ch :=
      get_chunk_path_ne_lock_path t _ _
    obtain ⟨ihlen, ihframe, ihspec⟩ :=
      ih (update_chunk fs (t.get_chunk_path ch) (t.get_lock_path ch) g replace).1 hndr
    have hheadavoid : ∀ cg1 ∈ rest,
        t.get_chunk_path ch ≠ t.get_chunk_path cg1.1 ∧
        t.get_chunk_path ch ≠ t.get_lock_path cg1.1 := by
      intro cg1 hm
      have hne1 : ch ≠ cg1.1 := fun hx => hch (hx ▸ List.mem_map.mpr ⟨cg1, hm, rfl⟩)
      exact ⟨paths_ne_of_hash_ne t hne1, get_chunk_path_ne_lock_path t _ _⟩
    have hlockavoid : ∀ cg1 ∈ rest,
        t.get_lock_path ch ≠ t.get_chunk_path cg1.1 ∧
        t.get_lock_path ch ≠ t.get_lock_path cg1.1 := by
      intro cg1 hm
      have hne1 : ch ≠ cg1.1 := fun hx => hch (hx ▸ List.mem_map.mpr ⟨cg1, hm, rfl⟩)
      exact ⟨(get_chunk_path_ne_lock_path t cg1.1 ch).symm, lock_paths_ne_of_hash_ne t hne1⟩
    refine ⟨?_, ?_, ?_⟩
    · simp only [run_chunks, List.length_cons]
      rw [ihlen]
    · intro p hp
      have hphead := hp (ch, g) (List.mem_cons_self _ _)
      simp only [run_chunks]
      rw [ihframe p (fun cg1 hm => hp cg1 (List.mem_cons_of_mem _ hm))]
      exact update_chunk_frame hnecl p hphead.1 hphead.2
    · intro cg r hm n hr
      simp only [run_chunks] at hm ⊢
      rw [List.zip_cons_cons] at hm
      rcases List.mem_cons.mp hm with h1 | h1
      · cases h1
        obtain ⟨hul, hureadable, hucv, hun, hulock⟩ := update_chunk_ok_spec hnecl hr
        refine ⟨?_, hun, hureadable, ?_⟩
        · rw [ihframe (t.get_chunk_path ch) hheadavoid]
          exact hucv
        · rw [ihframe (t.get_lock_path ch) hlockavoid]
          exact hulock
      · have hcgmem : cg ∈ rest := (List.of_mem_zip h1).1
        have hne1 : ch ≠ cg.1 := fun hx => hch (hx ▸ List.mem_map.mpr ⟨cg, hcgmem, rfl⟩)
        have hupc : (update_chunk fs (t.get_chunk_path ch) (t.get_lock_path ch) g
            replace).1 (t.get_chunk_path cg.1) = fs (t.get_chunk_path cg.1) :=
          update_chunk_frame hnecl _ (paths_ne_of_hash_ne t hne1.symm)
            ((get_chunk_path_ne_lock_path t cg.1 ch))
        obtain ⟨hscv, hsn, hsreadable, hslock⟩ := ihspec cg r h1 n hr
        have hload : loadPure (update_chunk fs (t.get_chunk_path ch)
            (t.get_lock_path ch) g replace).1 (t.get_chunk_path cg.1)
            = loadPure fs (t.get_chunk_path cg.1) := loadPure_congr hupc
        refine ⟨?_, ?_, ?_, hslock⟩
        · rw [hscv, hload]
        · rw [hsn, hload]
        · rw [← hupc, ← hload]
          exact hsreadable

theorem set_many_fst (t : Table K C T) (hCK : C ≤ K) (fs : FS K T)
    (items : List (Hash K × T)) (replace : Bool) :
    (t.set_many hCK fs items replace).1
      = (run_chunks t replace fs (group_by_chunk hCK items)).1 := by
  unfold Table.set_many
  split
  · rfl
  · rfl

theorem set_many_ok_cases {t : Table K C T} {hCK : C ≤ K} {fs : FS K T}
    {items : List (Hash K × T)} {replace : Bool} {n : Nat}
    (h : (t.set_many hCK fs items replace).2 = .ok n) :
    collectErrors (run_chunks t replace fs (group_by_chunk hCK items)).2 = [] ∧
    n = collectAdded (run_chunks t replace fs (group_by_chunk hCK items)).2 := by
  unfold Table.set_many at h
  split at h
  · rename_i hempty
    dsimp only at h
    cases h
    exact ⟨List.isEmpty_iff.mp hempty, rfl⟩
  · dsimp only at h
    cases h

/-! ## Claims C3 and C4 -/

/-- C3: for a successful `set_many` on a well-formed input mapping, with
`replace = false` every input key absent from its shard's existing mapping is
inserted with its input value and every pre-existing key keeps its old value
(whether or not it occurs in the input); with `replace = true` every input
key ends up mapped to its input value; keys outside the input are untouched
in both modes; and the returned count is the number of keys counted as added:
all input keys for `replace = true`, and exactly the input keys absent from
their shard's existing mapping for `replace = false`. -/
theorem spec_c3_set_many (t : Table K C T) (hCK : C ≤ K) (fs : FS K T)
    (items : List (Hash K × T)) (replace : Bool) (n : Nat)
    (hnd : keysNodup items)
    (hok : (t.set_many hCK fs items replace).2 = .ok n) :
    (∀ k v, (k, v) ∈ items →
      (replace = true →
        t.get hCK (t.set_many hCK fs items replace).1 k = .ok (some v)) ∧
      (replace = false → t.get hCK fs k = .ok none →
        t.get hCK (t.set_many hCK fs items replace).1 k = .ok (some v)) ∧
      (replace = false → ∀ w, t.get hCK fs k = .ok (some w) →
        t.get hCK (t.set_many hCK fs items replace).1 k = .ok (some w))) ∧
    (∀ k, k ∉ items.map Prod.fst →
      t.get hCK (t.set_many hCK fs items replace).1 k = t.get hCK fs k) ∧
    (replace = true → n = items.length) ∧
    (replace = false →
      n = (items.filter (fun kv =>
        !(mapContains (loadPure fs
          (t.get_chunk_path (get_chunk_hash kv.1 hCK))) kv.1))).length) := by
  obtain ⟨herr, hn⟩ := set_many_ok_cases hok
  obtain ⟨hlen, hframe, hspec⟩ := run_chunks_spec t replace (group_by_chunk hCK items) fs
    (group_by_chunk_fst_nodup hCK items)
  have hallok := collectErrors_nil_all_ok herr
  have hshard : ∀ cg ∈ group_by_chunk hCK items,
      (run_chunks t replace fs (group_by_chunk hCK items)).1 (t.get_chunk_path cg.1)
        = some (.chunk (applyNew (loadPure fs (t.get_chunk_path cg.1)) cg.2 replace).1) ∧
      (fs (t.get_chunk_path cg.1) = none ∨
        fs (t.get_chunk_path cg.1) = some (.chunk (loadPure fs (t.get_chunk_path cg.1)))) := by
    intro cg hcg
    obtain ⟨r, hr⟩ := mem_zip_exists _ _ hlen.symm cg hcg
    obtain ⟨m, hm⟩ := hallok r (List.of_mem_zip hr).2
    obtain ⟨h1, h2, h3, h4⟩ := hspec cg r hr m hm
    exact ⟨h1, h3⟩
  refine ⟨?_, ?_, ?_, ?_⟩
  · intro k v hkv
    obtain ⟨g, hg, hkvg⟩ := items_mem_group hnd hkv
    have hgnodup : keysNodup g := group_keysNodup hnd hg
    obtain ⟨hcv, hreadable⟩ := hshard (get_chunk_hash k hCK, g) hg
    have hafter : t.get hCK (t.set_many hCK fs items replace).1 k
        = .ok (mapLookup
            (applyNew (loadPure fs (t.get_chunk_path (get_chunk_hash k hCK))) g replace).1
            k) := by
      rw [set_many_fst]
      exact get_of_load (load_chunk_of_chunk hcv)
    have hbefore : t.get hCK fs k
        = .ok (mapLookup (loadPure fs (t.get_chunk_path (get_chunk_hash k hCK))) k) :=
      get_of_load (load_chunk_readable hreadable)
    refine ⟨?_, ?_, ?_⟩
    · intro hrep
      subst hrep
      rw [hafter, applyNew_lookup_mem_true _ hgnodup hkvg]
    · intro hrep hnone
      subst hrep
      rw [hbefore] at hnone
      injection hnone with hnone1
      rw [hafter, applyNew_lookup_mem_false_none _ hgnodup hkvg hnone1]
    · intro hrep w hsome
      subst hrep
      rw [hbefore] at hsome
      injection hsome with hsome1
      rw [hafter, applyNew_lookup_mem_false_some _ hgnodup hkvg hsome1]
  · intro k hk
    rw [set_many_fst]
    by_cases hsh : get_chunk_hash k hCK ∈ (group_by_chunk hCK items).map Prod.fst
    · obtain ⟨cg, hcg, hcgfst⟩ := List.mem_map.mp hsh
      obtain ⟨hcv, hreadable⟩ := hshard cg hcg
      have hknotg : k ∉ cg.2.map Prod.fst := by
        intro hmem
        obtain ⟨kv, hkvmem, hkvfst⟩ := List.mem_map.mp hmem
        exact hk (List.mem_map.mpr ⟨kv, group_mem_items hnd hcg hkvmem, hkvfst⟩)
      have hpath : t.get_chunk_path (get_chunk_hash k hCK) = t.get_chunk_path cg.1 := by
        rw [hcgfst]
      have hafter : t.get hCK (run_chunks t replace fs (group_by_chunk hCK items)).1 k
          = .ok (mapLookup
              (applyNew (loadPure fs (t.get_chunk_path cg.1)) cg.2 replace).1 k) := by
        refine get_of_load ?_
        rw [hpath]
        exact load_chunk_of_chunk hcv
      have hbefore : t.get hCK fs k
          = .ok (mapLookup (loadPure fs (t.get_chunk_path cg.1)) k) := by
        refine get_of_load ?_
        rw [hpath]
        exact load_chunk_readable hreadable
      rw [hafter, hbefore, applyNew_lookup_not_mem _ hknotg]
    · refine get_congr t hCK k ?_
      refine hframe _ ?_
      intro cg1 hm1
      constructor
      · intro hx
        exact hsh (by rw [get_chunk_path_inj t hx]; exact List.mem_map.mpr ⟨cg1, hm1, rfl⟩)
      · exact get_chunk_path_ne_lock_path t _ _
  · intro hrep
    subst hrep
    have hmap : (group_by_chunk hCK items).map
        (fun cg => (applyNew (loadPure fs (t.get_chunk_path cg.1)) cg.2 true).2)
        = (group_by_chunk hCK items).map (fun cg => cg.2.length) :=
      List.map_congr_left (fun cg _ =>
        applyNew_count_true (loadPure fs (t.get_chunk_path cg.1)))
    rw [hn, collectAdded_spec
      (fun cg => (applyNew (loadPure fs (t.get_chunk_path cg.1)) cg.2 true).2)
      (group_by_chunk hCK items) _ hlen
      (fun cg r hm m hr => (hspec cg r hm m hr).2.1) herr,
      hmap, ← groupsJoin_length]
    exact (group_by_chunk_join_perm hCK hnd).length_eq
  · intro hrep
    subst hrep
    have hmap : (group_by_chunk hCK items).map
        (fun cg => (applyNew (loadPure fs (t.get_chunk_path cg.1)) cg.2 false).2)
        = (group_by_chunk hCK items).map (fun cg => (cg.2.filter (fun kv =>
            !(mapContains (loadPure fs
              (t.get_chunk_path (get_chunk_hash kv.1 hCK))) kv.1))).length) := by
      refine List.map_congr_left ?_
      intro cg hcg
      rw [applyNew_count_false _ (group_keysNodup hnd hcg)]
      refine congrArg List.length (List.filter_congr ?_)
      intro kv hkv
      have hgood := group_by_chunk_good hCK items cg hcg kv hkv
      simp only [hgood]
    rw [hn, collectAdded_spec
      (fun cg => (applyNew (loadPure fs (t.get_chunk_path cg.1)) cg.2 false).2)
      (group_by_chunk hCK items) _ hlen
      (fun cg r hm m hr => (hspec cg r hm m hr).2.1) herr,
      hmap, ← groupsJoin_filter_length]
    exact ((group_by_chunk_join_perm hCK hnd).filter _).length_eq

/-- C4: `Table::set_many` never fails fast: every shard's update contributes
exactly one outcome regardless of the other shards; when at least one shard
failed, the call returns a single aggregate batch error carrying every
individual shard error, whose failed count equals the number of carried
errors and whose succeeded and failed counts sum to the number of shards;
and every shard whose update succeeded keeps its written state in the final
filesystem. -/
theorem spec_c4_set_many_errors (t : Table K C T) (hCK : C ≤ K) (fs : FS K T)
    (items : List (Hash K × T)) (replace : Bool) :
    (run_chunks t replace fs (group_by_chunk hCK items)).2.length
      = (group_by_chunk hCK items).length ∧
    (collectErrors (run_chunks t replace fs (group_by_chunk hCK items)).2 ≠ [] →
      (t.set_many hCK fs items replace).2
        = .error (.batch
            ((group_by_chunk hCK items).length
              - (collectErrors (run_chunks t replace fs (group_by_chunk hCK items)).2).length)
            (collectErrors (run_chunks t replace fs (group_by_chunk hCK items)).2).length
            (collectErrors (run_chunks t replace fs (group_by_chunk hCK items)).2)) ∧
      ((group_by_chunk hCK items).length
          - (collectErrors (run_chunks t replace fs (group_by_chunk hCK items)).2).length)
        + (collectErrors (run_chunks t replace fs (group_by_chunk hCK items)).2).length
        = (group_by_chunk hCK items).length) ∧
    (∀ cg r, (cg, r) ∈ (group_by_chunk hCK items).zip
        (run_chunks t replace fs (group_by_chunk hCK items)).2 →
      ∀ m, r = .ok m →
        (t.set_many hCK fs items replace).1 (t.get_chunk_path cg.1)
          = some (.chunk (applyNew (loadPure fs (t.get_chunk_path cg.1)) cg.2 replace).1)) := by
  obtain ⟨hlen, hframe, hspec⟩ := run_chunks_spec t replace (group_by_chunk hCK items) fs
    (group_by_chunk_fst_nodup hCK items)
  refine ⟨hlen, ?_, ?_⟩
  · intro hne
    have hempty : (collectErrors
        (run_chunks t replace fs (group_by_chunk hCK items)).2).isEmpty = false := by
      cases hcl : collectErrors (run_chunks t replace fs (group_by_chunk hCK items)).2 with
      | nil => exact absurd hcl hne
      | cons e es => rfl
    constructor
    · unfold Table.set_many
      rw [if_neg (by rw [hempty]; simp)]
    · have hle := collectErrors_length_le
        (run_chunks t replace fs (group_by_chunk hCK items)).2
      omega
  · intro cg r hm m hr
    rw [set_many_fst]
    exact (hspec cg r hm m hr).1

def presetFS : FS 1 Nat :=
  fun p =>
    if p = wTable.get_chunk_path (get_chunk_hash zeroHash1 (le_refl 1)) then
      some (.chunk [(zeroHash1, 10)])
    else none

def wItems : List (Hash 1 × Nat) := [(zeroHash1, 5), (oneHash1, 6)]

/-- Witness: the C3 theorem on a concrete two-shard batch with
`replace = false` over a state that already binds the first key. -/
theorem spec_c3_witness :
    wTable.get (le_refl 1) (wTable.set_many (le_refl 1) presetFS wItems false).1 zeroHash1
      = .ok (some 10) ∧
    wTable.get (le_refl 1) (wTable.set_many (le_refl 1) presetFS wItems false).1 oneHash1
      = .ok (some 6) ∧
    (1 : Nat) = (wItems.filter (fun kv =>
      !(mapContains (loadPure presetFS
        (wTable.get_chunk_path (get_chunk_hash kv.1 (le_refl 1)))) kv.1))).length :=
  ⟨((spec_c3_set_many wTable (le_refl 1) presetFS wItems false 1 (by show (wItems.map Prod.fst).Nodup; decide) rfl).1
      zeroHash1 5 (by decide)).2.2 rfl 10 rfl,
   ((spec_c3_set_many wTable (le_refl 1) presetFS wItems false 1 (by show (wItems.map Prod.fst).Nodup; decide) rfl).1
      oneHash1 6 (by decide)).2.1 rfl rfl,
   (spec_c3_set_many wTable (le_refl 1) presetFS wItems false 1 (by show (wItems.map Prod.fst).Nodup; decide) rfl).2.2.2 rfl⟩

/-- Witness: the C4 theorem on a concrete two-shard batch in which the first
shard's file is corrupt (fails to decode) and the second succeeds. -/
theorem spec_c4_witness :
    (run_chunks wTable true corruptFS (group_by_chunk (le_refl 1) wItems)).2.length
      = (group_by_chunk (le_refl 1) wItems).length ∧
    (wTable.set_many (le_refl 1) corruptFS wItems true).2
      = .error (.batch
          ((group_by_chunk (le_refl 1) wItems).length
            - (collectErrors (run_chunks wTable true corruptFS
                (group_by_chunk (le_refl 1) wItems)).2).length)
          (collectErrors (run_chunks wTable true corruptFS
            (group_by_chunk (le_refl 1) wItems)).2).length
          (collectErrors (run_chunks wTable true corruptFS
            (group_by_chunk (le_refl 1) wItems)).2)) ∧
    (collectErrors (run_chunks wTable true corruptFS
      (group_by_chunk (le_refl 1) wItems)).2).length = 1 ∧
    (wTable.set_many (le_refl 1) corruptFS wItems true).1
      (wTable.get_chunk_path (get_chunk_hash oneHash1 (le_refl 1)))
      = some (.chunk (applyNew (loadPure corruptFS
          (wTable.get_chunk_path (get_chunk_hash oneHash1 (le_refl 1))))
          [(oneHash1, 6)] true).1) :=
  ⟨(spec_c4_set_many_errors wTable (le_refl 1) corruptFS wItems true).1,
   ((spec_c4_set_many_errors wTable (le_refl 1) corruptFS wItems true).2.1
      (fun h => absurd (congrArg List.length h) (by decide))).1,
   rfl,
   (spec_c4_set_many_errors wTable (le_refl 1) corruptFS wItems true).2.2
      (get_chunk_hash oneHash1 (le_refl 1), [(oneHash1, 6)]) (.ok 1)
      (by exact List.mem_cons_of_mem _ (List.mem_cons_self _ _)) 1 rfl⟩

end FlatDb
